/-
Verification of the param-table binary codec (soulstruct/params/core.py).

The Python source is shallowly embedded below:
* `BitField` models the stateful bit cursor (`BitField.unpack/pack/pad/clear`);
  its hidden string of '0'/'1' characters (least-significant bit first, because
  the source reverses each byte's binary representation) is a `List Bool`.
* Record-level decoding/encoding (`ParamEntry.unpack` / `ParamEntry.pack`)
  follows the per-field loop of the source, driven by a schema
  (`ParamDefField` list) and a value-type registry.  The registry itself
  (the `enums` module) and the schema provider (`paramdef`) are external
  collaborators of the repository that are not part of the source tree, so
  value-type descriptors are modelled from the spec's interface description
  (byte width, binary layout, inclusive numeric range, native kind).
* Table-level serialization (`ParamTable.pack`) mirrors the source's
  accumulator loop; the shift-jis name encoding lives in an external utility
  module, so an entry's encoded name is carried as bytes.

Bytes are `Nat` (with `< 256` stated where it matters), machine integers are
`Int` with explicit two's-complement reductions, and fallible code returns
`Except`/`Option`.
-/
import Mathlib

/-! ### Bit-level helpers

`format(b, "08b")[::-1]` turns a byte into its bits least-significant first;
`int(s[::-1], 2)` interprets such a list back as a number. -/

/-- Bits of `v`, least-significant first, exactly `n` entries
(the reversal of the zero-padded binary string used by the source). -/
def natToBits : Nat → Nat → List Bool
  | _, 0 => []
  | v, n + 1 => (v % 2 = 1) :: natToBits (v / 2) n

/-- Value of a least-significant-first bit list (`int(s[::-1], 2)`). -/
def bitsToNat : List Bool → Nat
  | [] => 0
  | b :: bs => (if b then 1 else 0) + 2 * bitsToNat bs

/-- Length of `bin(v)[2:]` in Python: 1 for zero, otherwise `log2 v + 1`. -/
def binWidth (v : Nat) : Nat := if v = 0 then 1 else Nat.log2 v + 1

theorem natToBits_length (v n : Nat) : (natToBits v n).length = n := by
  induction n generalizing v with
  | zero => rfl
  | succ n ih => simp [natToBits, ih]

theorem bitsToNat_lt (l : List Bool) : bitsToNat l < 2 ^ l.length := by
  induction l with
  | nil => simp [bitsToNat]
  | cons b bs ih =>
    simp only [bitsToNat, List.length_cons, pow_succ]
    cases b <;> simp <;> omega

theorem bitsToNat_natToBits {v n : Nat} (h : v < 2 ^ n) :
    bitsToNat (natToBits v n) = v := by
  induction n generalizing v with
  | zero =>
    simp [natToBits, bitsToNat]
    omega
  | succ n ih =>
    have hdiv : v / 2 < 2 ^ n := by
      have : (2 : Nat) ^ (n + 1) = 2 ^ n * 2 := by ring
      rw [this] at h
      exact Nat.div_lt_of_lt_mul (by omega)
    simp only [natToBits, bitsToNat, ih hdiv]
    have := Nat.mod_two_eq_zero_or_one v
    have := Nat.div_add_mod v 2
    rcases Nat.mod_two_eq_zero_or_one v with h2 | h2 <;> simp [h2] <;> omega

theorem natToBits_bitsToNat (l : List Bool) :
    natToBits (bitsToNat l) l.length = l := by
  induction l with
  | nil => rfl
  | cons b bs ih =>
    simp only [bitsToNat, List.length_cons, natToBits, List.cons.injEq]
    refine ⟨?_, ?_⟩
    · cases b <;> simp [Nat.add_mul_mod_self_left]
    · have h2 : ((if b then 1 else 0) + 2 * bitsToNat bs) / 2 = bitsToNat bs := by
        cases b <;> simp <;> omega
      rw [h2, ih]

theorem natToBits_take {k n : Nat} (v : Nat) (h : k ≤ n) :
    (natToBits v n).take k = natToBits v k := by
  induction k generalizing v n with
  | zero => simp [natToBits]
  | succ k ih =>
    cases n with
    | zero => omega
    | succ n =>
      simp only [natToBits, List.take_succ_cons]
      rw [ih (v / 2) (by omega)]

theorem binWidth_le {v w : Nat} (hw : 1 ≤ w) (hv : v < 2 ^ w) : binWidth v ≤ w := by
  unfold binWidth
  split
  · exact hw
  · next h0 =>
    have := (Nat.log2_lt h0).mpr hv
    omega

theorem binWidth_gt {v w : Nat} (h : 2 ^ w ≤ v) : w < binWidth v := by
  have h0 : v ≠ 0 := by
    have : 0 < 2 ^ w := Nat.pos_pow_of_pos _ (by omega)
    omega
  unfold binWidth
  simp only [h0, if_false]
  have := (Nat.le_log2 h0).mpr h
  omega

/-! ### The bit cursor (`class BitField`)

State: the pending LSB-first bit string and the read offset within it. -/

structure BitField where
  field : List Bool
  offset : Nat
deriving DecidableEq

inductive BitErr
  | overflow (value bitCount : Nat)
deriving DecidableEq

/-- Shared tail of `BitField.unpack` once the active one-byte bit list `f` is
known: slice `bitCount` bits at `offset`, advance, and clear on reaching 8.
(An empty slice models the `int('', 2)` failure the source would hit.) -/
def unpackFromBits (f : List Bool) (offset bitCount : Nat) (rest : List Nat) :
    Option (Nat × BitField × List Nat) :=
  let slice := (f.drop offset).take bitCount
  if slice = [] then none
  else if 8 ≤ offset + bitCount then
    some (bitsToNat slice, ⟨[], (offset + bitCount) % 8⟩, rest)
  else
    some (bitsToNat slice, ⟨f, offset + bitCount⟩, rest)

/-- `BitField.unpack`: consume (and bit-reverse) a fresh byte when no bits are
buffered, then extract `bitCount` bits at the current offset.  `none` models
the struct/int errors the source raises (no byte available, empty slice). -/
def BitField.unpack (bf : BitField) (buffer : List Nat) (bitCount : Nat) :
    Option (Nat × BitField × List Nat) :=
  match bf.field, buffer with
  | [], [] => none
  | [], b :: rest => unpackFromBits (natToBits b 8) bf.offset bitCount rest
  | f :: fs, rest => unpackFromBits (f :: fs) bf.offset bitCount rest

/-- `BitField.pack`: error when the value's binary width exceeds `bitCount`;
otherwise append the `bitCount` reversed bits and emit a completed byte. -/
def BitField.pack (bf : BitField) (value bitCount : Nat) :
    Except BitErr (Option Nat × BitField) :=
  if bitCount < binWidth value then .error (.overflow value bitCount)
  else
    let f := bf.field ++ natToBits value bitCount
    if 8 ≤ f.length then .ok (some (bitsToNat (f.take 8)), ⟨f.drop 8, bf.offset⟩)
    else .ok (none, ⟨f, bf.offset⟩)

/-- `BitField.pad`: zero-fill a pending bit string to a whole byte and emit it
(zero-filling does not change the LSB-first value). -/
def BitField.pad (bf : BitField) : Option Nat × BitField :=
  match bf.field with
  | [] => (none, bf)
  | f :: fs => (some (bitsToNat (f :: fs)), ⟨[], bf.offset⟩)

/-- `BitField.clear`: discard pending state. -/
def BitField.clear : BitField := ⟨[], 0⟩

/-- C3 support: packing `v` (representable in `w` bits, `1 ≤ w ≤ 7`) from an
empty cursor buffers the bits without emitting. -/
theorem bitfield_pack_small {w v : Nat} (hw1 : 1 ≤ w) (hw7 : w ≤ 7) (hv : v < 2 ^ w) :
    BitField.pack ⟨[], 0⟩ v w = .ok (none, ⟨natToBits v w, 0⟩) := by
  unfold BitField.pack
  have h1 : ¬ w < binWidth v := by
    have := binWidth_le hw1 hv
    omega
  simp [h1, natToBits_length]
  omega

theorem bitfield_pad_small {w v : Nat} (hw1 : 1 ≤ w) (hv : v < 2 ^ w) :
    BitField.pad ⟨natToBits v w, 0⟩ = (some v, ⟨[], 0⟩) := by
  have h := bitsToNat_natToBits hv
  cases w with
  | zero => omega
  | succ n =>
    simp only [natToBits] at h ⊢
    simp only [BitField.pad, h]

theorem bitfield_unpack_small {w v : Nat} (hw1 : 1 ≤ w) (hw7 : w ≤ 7) (hv : v < 2 ^ w) :
    BitField.unpack ⟨[], 0⟩ [v] w = some (v, ⟨natToBits v 8, w⟩, []) := by
  unfold BitField.unpack
  simp only
  unfold unpackFromBits
  have htake : ((natToBits v 8).drop 0).take w = natToBits v w := by
    simp [natToBits_take v (by omega : w ≤ 8)]
  simp only [htake]
  have hne : natToBits v w ≠ [] := by
    cases w with
    | zero => omega
    | succ n => simp [natToBits]
  have h8 : ¬ 8 ≤ 0 + w := by omega
  simp [hne, h8, bitsToNat_natToBits hv]
  exact fun hcon => absurd (by omega : 8 ≤ 0 + w) h8

/-! ### Little-endian byte codecs (the `struct` formats used by the registry) -/

/-- Little-endian value of a byte list. -/
def leNat : List Nat → Nat
  | [] => 0
  | b :: bs => b + 256 * leNat bs

/-- `n` little-endian bytes of `v`. -/
def natToLE : Nat → Nat → List Nat
  | _, 0 => []
  | v, n + 1 => v % 256 :: natToLE (v / 256) n

/-- Signed (two's-complement) reading of an `n`-byte little-endian value,
as `struct` does for signed formats. -/
def sintOfNat (n v : Nat) : Int :=
  if v < 2 ^ (8 * n - 1) then (v : Int) else (v : Int) - 2 ^ (8 * n)

/-- `struct.pack` of an integer into `n` little-endian bytes
(two's-complement reduction). -/
def intToLE (i : Int) (n : Nat) : List Nat :=
  natToLE (i % ((2 : Int) ^ (8 * n))).toNat n

theorem natToLE_length (v n : Nat) : (natToLE v n).length = n := by
  induction n generalizing v with
  | zero => rfl
  | succ n ih => simp [natToLE, ih]

theorem leNat_lt {l : List Nat} (h : ∀ b ∈ l, b < 256) :
    leNat l < 256 ^ l.length := by
  induction l with
  | nil => simp [leNat]
  | cons b bs ih =>
    have hb : b < 256 := h b (by simp)
    have hbs := ih (fun x hx => h x (by simp [hx]))
    simp only [leNat, List.length_cons, pow_succ]
    calc b + 256 * leNat bs < 256 + 256 * leNat bs := by omega
      _ ≤ 256 * 256 ^ bs.length := by
          have : leNat bs + 1 ≤ 256 ^ bs.length := hbs
          calc 256 + 256 * leNat bs = 256 * (leNat bs + 1) := by ring
            _ ≤ 256 * 256 ^ bs.length := by exact Nat.mul_le_mul_left _ hbs
      _ = 256 ^ bs.length * 256 := by ring

theorem natToLE_leNat {l : List Nat} (h : ∀ b ∈ l, b < 256) :
    natToLE (leNat l) l.length = l := by
  induction l with
  | nil => rfl
  | cons b bs ih =>
    have hb : b < 256 := h b (by simp)
    simp only [leNat, List.length_cons, natToLE, List.cons.injEq]
    refine ⟨by omega, ?_⟩
    have hdiv : (b + 256 * leNat bs) / 256 = leNat bs := by omega
    rw [hdiv, ih (fun x hx => h x (by simp [hx]))]

/-! ### Values and the value-type registry

The registry (`enums` module) is an external collaborator of the repository;
descriptors are modelled from the spec: byte width, binary layout
(endianness/signedness/float-vs-int), inclusive numeric range, native kind.
Floating-point values are abstracted as their raw little-endian bit pattern
(`struct` round-trips the pattern), and the float range check is modelled as
always passing, since the registry's float ranges span every representable
value. -/

inductive Layout
  | uint
  | sint
  | float
deriving DecidableEq

structure ValueType where
  size : Nat
  layout : Layout
  min : Int
  max : Int
deriving DecidableEq

/-- Native values stored in a record's field mapping: Python ints, floats
(as bit patterns) and the raw bytes kept for padding fields. -/
inductive Value
  | vint (i : Int)
  | vfloat (bits : Nat)
  | vbytes (bs : List Nat)
deriving DecidableEq

/-- IEEE-754 single-precision bit pattern of 1.0 (0x3F800000), the value the
source substitutes for the two tolerated corrupt fields. -/
def float32OneBits : Nat := 1065353216

/-- A registry descriptor is sound when its declared range covers everything
its binary layout can decode (true of the real `enums` registry: e.g. u8 is
0..255). -/
def ValueType.sound (vt : ValueType) : Bool :=
  match vt.layout with
  | .uint => decide (vt.min ≤ 0 ∧ (2 : Int) ^ (8 * vt.size) - 1 ≤ vt.max)
  | .sint => decide (vt.min ≤ -((2 : Int) ^ (8 * vt.size - 1)) ∧
      (2 : Int) ^ (8 * vt.size - 1) - 1 ≤ vt.max)
  | .float => true

/-- Modelled from the spec: the value-type registry mapping an encoded type
tag to its descriptor (attribute lookup on the `enums` module). -/
def specRegistry : List (String × ValueType) :=
  [("u8", ⟨1, .uint, 0, 255⟩),
   ("s8", ⟨1, .sint, -128, 127⟩),
   ("u16", ⟨2, .uint, 0, 65535⟩),
   ("s16", ⟨2, .sint, -32768, 32767⟩),
   ("u32", ⟨4, .uint, 0, 4294967295⟩),
   ("s32", ⟨4, .sint, -2147483648, 2147483647⟩),
   ("f32", ⟨4, .float, -340282346638528859811704183484516925440,
      340282346638528859811704183484516925440⟩)]

/-- `enums.f32`, the explicit fallback type for the `sfxMultiplier` alias. -/
def f32 : ValueType :=
  ⟨4, .float, -340282346638528859811704183484516925440,
    340282346638528859811704183484516925440⟩

def RegistrySound (reg : List (String × ValueType)) : Prop :=
  ∀ p ∈ reg, (p.2).sound = true

/-- `struct.unpack(field_type.format(), data)`: fails exactly when the byte
count is wrong, otherwise decodes per the binary layout. -/
def decodeScalar (vt : ValueType) (data : List Nat) : Option Value :=
  if data.length = vt.size then
    match vt.layout with
    | .uint => some (.vint (leNat data))
    | .sint => some (.vint (sintOfNat vt.size (leNat data)))
    | .float => some (.vfloat (leNat data))
  else none

/-- `struct.pack(field_type.format(), field_value)` for a kind-checked,
range-checked value. -/
def encodeScalar (vt : ValueType) (v : Value) : List Nat :=
  match vt.layout, v with
  | .uint, .vint i => intToLE i vt.size
  | .sint, .vint i => intToLE i vt.size
  | .float, .vfloat bits => natToLE bits vt.size
  | _, _ => []

/-- `isinstance(value, field_type.python_type())`. -/
def kindOk (vt : ValueType) (v : Value) : Bool :=
  match vt.layout, v with
  | .uint, .vint _ => true
  | .sint, .vint _ => true
  | .float, .vfloat _ => true
  | _, _ => false

/-- `field_type.minimum() <= value <= field_type.maximum()` (float ranges are
modelled as always satisfied, see above). -/
def inRange (vt : ValueType) (v : Value) : Bool :=
  match v with
  | .vint i => decide (vt.min ≤ i ∧ i ≤ vt.max)
  | .vfloat _ => true
  | .vbytes _ => true

/-! ### Field schemas (`ParamDefField`, an external schema provider object) -/

/-- The per-field schema data the codec reads: `name`, `debug_name`,
`internal_type`, `bit_size`, `size`. -/
structure ParamDefField where
  name : String
  debug_name : String
  internal_type : String
  bit_size : Nat
  size : Nat
deriving DecidableEq

/-- `getattr(enums, field.internal_type)` with the source's fallback: an
unknown tag resolves to `enums.f32` when the field is named `sfxMultiplier`. -/
def lookupType (reg : List (String × ValueType)) (f : ParamDefField) :
    Option ValueType :=
  match List.lookup f.internal_type reg with
  | some vt => some vt
  | none => if f.name = "sfxMultiplier" then some f32 else none

/-- `field.debug_name in {"inverseToneMapMul", "sfxMultiplier"}`. -/
def tolerated (debugName : String) : Bool :=
  debugName == "inverseToneMapMul" || debugName == "sfxMultiplier"

/-! ### Record decoding (`ParamEntry.unpack`) -/

inductive UErr
  | bitReadError (fieldName : String)
  | padNotNull (tableName entryName fieldName : String)
  | unknownType (tableName fieldName : String)
  | structFail (fieldName : String)
deriving DecidableEq

/-- `self.fields[field.name] = field_value` on an ordered dict: replace the
first entry with that key, or append. -/
def odInsert : List (String × Value) → String → Value → List (String × Value)
  | [], k, v => [(k, v)]
  | (k0, v0) :: rest, k, v =>
    if k0 = k then (k0, v) :: rest else (k0, v0) :: odInsert rest k v

/-- One iteration of the decode loop of `ParamEntry.unpack`: sub-byte fields
go through the bit cursor; `dummy8` fields clear the cursor and must read
`size` null bytes; scalar fields clear the cursor, resolve the value type and
decode `size` bytes, substituting float 1.0 on a structural failure for the
two tolerated debug names and failing otherwise. -/
def unpackField (reg : List (String × ValueType)) (tableName entryName : String)
    (f : ParamDefField) (bf : BitField) (buffer : List Nat) :
    Except UErr (Value × BitField × List Nat) :=
  if f.bit_size < 8 then
    match BitField.unpack bf buffer f.bit_size with
    | none => .error (.bitReadError f.name)
    | some (v, bf2, buf2) => .ok (.vint v, bf2, buf2)
  else if f.internal_type = "dummy8" then
    if buffer.take f.size = List.replicate f.size 0 then
      .ok (.vbytes (buffer.take f.size), BitField.clear, buffer.drop f.size)
    else .error (.padNotNull tableName entryName f.name)
  else
    match lookupType reg f with
    | none => .error (.unknownType tableName f.name)
    | some ft =>
      match decodeScalar ft (buffer.take ft.size) with
      | some v => .ok (v, BitField.clear, buffer.drop ft.size)
      | none =>
        if tolerated f.debug_name then
          .ok (.vfloat float32OneBits, BitField.clear, buffer.drop ft.size)
        else .error (.structFail f.name)

/-- The decode loop over the schema's field list, accumulating the ordered
field mapping. -/
def unpackFields (reg : List (String × ValueType)) (tableName entryName : String) :
    List ParamDefField → List (String × Value) → BitField → List Nat →
    Except UErr (List (String × Value) × BitField × List Nat)
  | [], acc, bf, buffer => .ok (acc, bf, buffer)
  | f :: fs, acc, bf, buffer =>
    match unpackField reg tableName entryName f bf buffer with
    | .error e => .error e
    | .ok (v, bf2, buf2) =>
      unpackFields reg tableName entryName fs (odInsert acc f.name v) bf2 buf2

/-- `ParamEntry.unpack`: decode raw entry bytes against a schema, returning
the ordered field mapping, the final cursor state and the unread suffix. -/
def ParamEntry.unpack (reg : List (String × ValueType))
    (tableName entryName : String) (schema : List ParamDefField)
    (buffer : List Nat) :
    Except UErr (List (String × Value) × BitField × List Nat) :=
  unpackFields reg tableName entryName schema [] ⟨[], 0⟩ buffer

/-! ### Record encoding (`ParamEntry.pack`) -/

inductive PErr
  | fieldMissing (fieldName : String)
  | badBitValue (fieldName : String)
  | bitOverflow (value : Int) (bitCount : Nat)
  | unknownType (tableName fieldName : String)
  | badType (tableName entryName fieldName : String) (value : Value)
  | outOfRange (tableName entryName fieldName : String) (value : Value)
deriving DecidableEq

/-- Flush the pending bit buffer before a byte-aligned field, appending the
completed byte when one is emitted. -/
def padOut (bf : BitField) (out : List Nat) : List Nat × BitField :=
  match BitField.pad bf with
  | (some b, bf2) => (out ++ [b], bf2)
  | (none, bf2) => (out, bf2)

/-- The encode loop of `ParamEntry.pack` over the ordered field mapping:
look each field name up in the schema; sub-byte fields go through the bit
cursor (emitting completed bytes); byte-aligned fields first flush the
cursor, then `dummy8` writes nulls while scalars are kind-checked and
range-checked before `struct.pack`.  Any pending bits at the end of the
loop are dropped, as in the source. -/
def packFields (reg : List (String × ValueType)) (tableName entryName : String)
    (schema : List ParamDefField) :
    List (String × Value) → BitField → List Nat → Except PErr (List Nat)
  | [], _, out => .ok out
  | (fieldName, v) :: rest, bf, out =>
    match schema.find? (fun g => g.name == fieldName) with
    | none => .error (.fieldMissing fieldName)
    | some f =>
      if f.bit_size < 8 then
        match v with
        | .vint i =>
          if i < 0 then .error (.badBitValue fieldName)
          else
            match BitField.pack bf i.toNat f.bit_size with
            | .error _ => .error (.bitOverflow i f.bit_size)
            | .ok (some b, bf2) =>
              packFields reg tableName entryName schema rest bf2 (out ++ [b])
            | .ok (none, bf2) =>
              packFields reg tableName entryName schema rest bf2 out
        | _ => .error (.badBitValue fieldName)
      else
        let out2 := (padOut bf out).1
        let bf2 := (padOut bf out).2
        if f.internal_type = "dummy8" then
          packFields reg tableName entryName schema rest bf2
            (out2 ++ List.replicate f.size 0)
        else
          match lookupType reg f with
          | none => .error (.unknownType tableName fieldName)
          | some ft =>
            if kindOk ft v then
              if inRange ft v then
                packFields reg tableName entryName schema rest bf2
                  (out2 ++ encodeScalar ft v)
              else .error (.outOfRange tableName entryName fieldName v)
            else .error (.badType tableName entryName fieldName v)

/-- `ParamEntry.pack`: serialize the ordered field mapping back to bytes. -/
def ParamEntry.pack (reg : List (String × ValueType))
    (tableName entryName : String) (schema : List ParamDefField)
    (fields : List (String × Value)) : Except PErr (List Nat) :=
  packFields reg tableName entryName schema fields ⟨[], 0⟩ []

/-! ### Table-level structures (`ParamTable`) -/

/-- One record of the entry-pointer array (`ENTRY_POINTER_STRUCT`:
three little-endian signed 32-bit values). -/
structure EntryPointer where
  id : Int
  data_offset : Int
  name_offset : Int
deriving DecidableEq

/-- `HEADER_STRUCT.size`: I(4) + H(2) + H(2) + H(2) + H(2) + 32j(32) + b(1)
+ H(2) + B(1) = 48 bytes, packed without alignment padding. -/
def headerSize : Nat := 48

/-- `ENTRY_POINTER_STRUCT.size`: 3 × i = 12 bytes. -/
def entryPointerSize : Nat := 12

/-- The entry-stride inference of `ParamTable.unpack`.  The stream position
after sequentially reading the header and the pointer array is
`headerSize + entryPointerSize * count`, which is what `param_buffer.tell()`
holds when the source computes the one-entry stride. -/
def inferEntrySize (paramName : String) (entryPointers : List EntryPointer)
    (nameDataOffset : Int) : Option Int :=
  let entryDataOffset : Int := headerSize + entryPointerSize * entryPointers.length
  match entryPointers with
  | [] => none
  | [_] =>
    if paramName = "LEVELSYNC_PARAM_ST" then some 220
    else some (nameDataOffset - entryDataOffset)
  | p0 :: p1 :: _ => some (p1.data_offset - p0.data_offset)

/-- Modelled from the spec, amended for C2: the spec's stride-inference
description with the one-entry case corrected — the subtrahend is the stream
position just past the pointer array (48-byte header plus one 12-byte
pointer, i.e. 60), not the first entry's declared data offset. -/
def inferEntrySizeAmended (paramName : String) (entryPointers : List EntryPointer)
    (nameDataOffset : Int) : Option Int :=
  match entryPointers with
  | [] => none
  | [_] =>
    if paramName = "LEVELSYNC_PARAM_ST" then some 220
    else some (nameDataOffset - 60)
  | p0 :: p1 :: _ => some (p1.data_offset - p0.data_offset)

/-- Two little-endian bytes of a 16-bit header value (`"H"`). -/
def u16LE (i : Int) : List Nat := natToLE (i % ((2 : Int) ^ 16)).toNat 2

/-- Four little-endian bytes of an unsigned 32-bit header value (`"I"`). -/
def u32LE (v : Nat) : List Nat := natToLE v 4

/-- Four little-endian bytes of a signed 32-bit value (`"i"`),
two's-complement reduced. -/
def i32LE (i : Int) : List Nat := natToLE (i % ((2 : Int) ^ 32)).toNat 4

/-- Modelled from the spec: the fixed 32-byte null-padded table-name field
(`"32j"`); the shift-jis encoding lives in an external utility module and is
modelled as the name's code points (they agree on the ASCII names real
tables use). -/
def fixedStr32 (s : String) : List Nat :=
  let cs := (s.data.map Char.toNat).take 32
  cs ++ List.replicate (32 - cs.length) 0

/-- `HEADER_STRUCT.pack` with the field values `ParamTable.pack` supplies;
the `big_endian` byte uses its default 0. -/
def headerBytes (nameDataOffset entryDataOffsetHint : Nat) (m0 m1 : Int)
    (entryCount : Nat) (paramName : String) (m2 : Int) (unknown : Int) :
    List Nat :=
  u32LE nameDataOffset ++ natToLE entryDataOffsetHint 2 ++ u16LE m0 ++ u16LE m1
    ++ natToLE entryCount 2 ++ fixedStr32 paramName ++ [0] ++ u16LE m2
    ++ natToLE (unknown % 256).toNat 1

/-- An in-memory table entry as `ParamTable.pack` consumes it: the display
name (used in error messages), its encoded bytes (shift-jis encoding being
external, the encoded form is carried directly; the two junk byte sequences
are likewise raw bytes), the schema, and the ordered field mapping. -/
structure TableEntry where
  name : String
  nameBytes : List Nat
  schema : List ParamDefField
  fields : List (String × Value)
deriving DecidableEq

/-- The `ParamTable` state that `pack` reads: internal name, the magic values
and unknown byte captured at parse time, and the id-to-entry mapping (a dict,
modelled as an association list in insertion order with unique ids). -/
structure PTable where
  param_name : String
  magic : List Int
  unknown : Option Int
  entries : List (Int × TableEntry)
deriving DecidableEq

/-- `ParamTable.__init__` with a prepared id-to-entry dict: only `entries`
is populated; `param_name` stays `""`, `magic` stays `[]` and `unknown`
stays `None`. -/
def PTable.ofDict (entries : List (Int × TableEntry)) : PTable :=
  { param_name := "", magic := [], unknown := none, entries := entries }

inductive PackErr
  | entryError (e : PErr)
  | magicMissing
  | unknownMissing
deriving DecidableEq

/-- The accumulator loop of `ParamTable.pack`: per entry, append the
null-terminated name to the name blob and the packed record to the data
blob, recording each entry's relative offset before it is appended.
State: current name offset, current data offset, offset lists, both blobs. -/
def packLoop (reg : List (String × ValueType)) (tableName : String) :
    List (Int × TableEntry) → Nat → Nat → List Nat → List Nat →
    List Nat → List Nat →
    Except PackErr (List Nat × List Nat × List Nat × List Nat)
  | [], _, _, nOffs, dOffs, packedNames, packedData =>
    .ok (nOffs, dOffs, packedNames, packedData)
  | (_, e) :: rest, curName, curData, nOffs, dOffs, packedNames, packedData =>
    let nameZ := e.nameBytes ++ [0]
    match ParamEntry.pack reg tableName e.name e.schema e.fields with
    | .error err => .error (.entryError err)
    | .ok body =>
      packLoop reg tableName rest (curName + nameZ.length) (curData + body.length)
        (nOffs ++ [curName]) (dOffs ++ [curData])
        (packedNames ++ nameZ) (packedData ++ body)

/-- The second loop of `ParamTable.pack`: zip ids with the recorded relative
offsets and emit one 12-byte pointer per entry with absolute offsets. -/
def buildPtrs (entryDataOffset nameDataOffset : Nat) :
    List Int → List Nat → List Nat → List Nat
  | id :: ids, dOff :: dOffs, nOff :: nOffs =>
    i32LE id ++ i32LE (entryDataOffset + dOff) ++ i32LE (nameDataOffset + nOff)
      ++ buildPtrs entryDataOffset nameDataOffset ids dOffs nOffs
  | _, _, _ => []

/-- `sorted(self.entries.items())`: ascending by id (ids are dict keys,
hence unique, so only the first tuple component decides). -/
def sortedEntries (entries : List (Int × TableEntry)) : List (Int × TableEntry) :=
  List.insertionSort (fun a b => a.1 ≤ b.1) entries

/-- `ParamTable.pack`: sort (by default), build both blobs and the offset
lists, then emit header, pointer array, data blob and name blob.  The header
needs `magic[0..2]` and the unknown byte, which fail for a table that never
parsed them. -/
def ParamTable.pack (reg : List (String × ValueType)) (t : PTable)
    (sortFlag : Bool) : Except PackErr (List Nat) :=
  let sorted := if sortFlag then sortedEntries t.entries else t.entries
  match packLoop reg t.param_name sorted 0 0 [] [] [] [] with
  | .error e => .error e
  | .ok (nOffs, dOffs, packedNames, packedData) =>
    let entryDataOffset := headerSize + entryPointerSize * sorted.length
    let nameDataOffset := entryDataOffset + packedData.length
    let ptrData := buildPtrs entryDataOffset nameDataOffset
      (sorted.map Prod.fst) dOffs nOffs
    match t.magic with
    | m0 :: m1 :: m2 :: _ =>
      match t.unknown with
      | some u =>
        .ok (headerBytes nameDataOffset (min entryDataOffset 65535) m0 m1
          sorted.length t.param_name m2 u ++ ptrData ++ packedData ++ packedNames)
      | none => .error .unknownMissing
    | _ => .error .magicMissing

/-! ### Field lookup (`ParamEntry.__getitem__`) -/

/-- A `KeyError`, raised either after an out-of-range integer index or for a
missing string key. -/
inductive GErr
  | keyIndex (i : Int)
  | keyName (fieldName entryName : String)
deriving DecidableEq

/-- The lookup key: a Python int, a str, or anything else (None, float, ...). -/
inductive FieldKey
  | kint (i : Int)
  | kstr (s : String)
  | kother
deriving DecidableEq

/-- Python list indexing `l[i]`, with negative indices resolving from the
end. -/
def pyListGet (l : List String) (i : Int) : Option String :=
  if 0 ≤ i then l.get? i.toNat
  else if 0 ≤ i + l.length then l.get? (i + l.length).toNat
  else none

/-- `ParamEntry.__getitem__`: an int key is resolved through the ordered key
list (negative indices from the end, out of range raising `KeyError`), then
looked up as a string; a string key is looked up directly (`KeyError` when
absent); any other key falls through both `isinstance` checks and returns
`None`. -/
def ParamEntry.getItem (fields : List (String × Value)) (entryName : String) :
    FieldKey → Except GErr (Option Value)
  | .kother => .ok none
  | .kint i =>
    match pyListGet (fields.map Prod.fst) i with
    | none => .error (.keyIndex i)
    | some name =>
      match List.lookup name fields with
      | some v => .ok (some v)
      | none => .error (.keyName name entryName)
  | .kstr s =>
    match List.lookup s fields with
    | some v => .ok (some v)
    | none => .error (.keyName s entryName)

/-- `Except` failure test shared by several statements. -/
def isError {ε α : Type} : Except ε α → Bool
  | .error _ => true
  | .ok _ => false

/-! ### Claim C3: bit-cursor round trip and overflow failure -/

/-- C3: for every bit width `1 ≤ w ≤ 7` and every value representable in `w`
bits, packing with the bit cursor, flushing the pending buffer into a byte
with `pad`, and unpacking at width `w` yields the original value; and packing
any value whose binary representation is wider than `w` bits fails with an
encoding error. -/
theorem c3_bit_cursor_roundtrip (w v u : Nat) (hw1 : 1 ≤ w) (hw7 : w ≤ 7)
    (hv : v < 2 ^ w) (hu : 2 ^ w ≤ u) :
    BitField.pack ⟨[], 0⟩ v w = .ok (none, ⟨natToBits v w, 0⟩)
    ∧ BitField.pad ⟨natToBits v w, 0⟩ = (some v, ⟨[], 0⟩)
    ∧ BitField.unpack ⟨[], 0⟩ [v] w = some (v, ⟨natToBits v 8, w⟩, [])
    ∧ BitField.pack ⟨[], 0⟩ u w = .error (.overflow u w) := by
  refine ⟨bitfield_pack_small hw1 hw7 hv, bitfield_pad_small hw1 hv,
    bitfield_unpack_small hw1 hw7 hv, ?_⟩
  unfold BitField.pack
  have := binWidth_gt hu
  simp [this]

/-- Witness for C3 at width 3, value 5, overflowing value 9. -/
theorem c3_bit_cursor_roundtrip_witness :
    1 ≤ 3 ∧ 3 ≤ 7 ∧ 5 < 2 ^ 3 ∧ 2 ^ 3 ≤ 9 ∧
    (BitField.pack ⟨[], 0⟩ 5 3 = .ok (none, ⟨natToBits 5 3, 0⟩)
      ∧ BitField.pad ⟨natToBits 5 3, 0⟩ = (some 5, ⟨[], 0⟩)
      ∧ BitField.unpack ⟨[], 0⟩ [5] 3 = some (5, ⟨natToBits 5 8, 3⟩, [])
      ∧ BitField.pack ⟨[], 0⟩ 9 3 = .error (.overflow 9 3)) :=
  ⟨by decide, by decide, by decide, by decide,
    c3_bit_cursor_roundtrip 3 5 9 (by decide) (by decide) (by decide) (by decide)⟩

/-! ### Claim C2: entry-stride inference -/

/-- C2 counterexample: a single-entry table (name not the hard-coded one)
whose pointer declares data offset 100 with name-blob offset 200.  The claim
says the stride is `200 - 100 = 100`; the source subtracts the stream
position after the pointer array (`48 + 12 = 60`) and infers 140. -/
theorem c2_stride_counterexample :
    inferEntrySize "AAA_PARAM_ST" [⟨1, 100, 0⟩] 200 = some 140
    ∧ (140 : Int) ≠ 200 - 100 := by
  constructor
  · rfl
  · decide

/-- C2 (amended): stride inference by cases on the entry count — more than
one entry: second data offset minus first data offset (100 and 164 give 64);
exactly one entry: the hard-coded 220 for LEVELSYNC_PARAM_ST, otherwise the
name-blob offset minus the position just past the pointer array (60), which
is the first entry's data offset only when its data starts right there;
zero entries: nothing is inferred. -/
theorem c2_stride_amended (paramName : String) (ps : List EntryPointer)
    (ndo : Int) :
    inferEntrySize paramName ps ndo = inferEntrySizeAmended paramName ps ndo
    ∧ inferEntrySize "AAA_PARAM_ST" [⟨1, 100, 0⟩, ⟨2, 164, 0⟩] 999 = some 64
    ∧ inferEntrySize "LEVELSYNC_PARAM_ST" [⟨1, 100, 0⟩] 999 = some 220
    ∧ inferEntrySize paramName [] ndo = none := by
  refine ⟨?_, by decide, by decide, rfl⟩
  match ps with
  | [] => rfl
  | [p] =>
    simp only [inferEntrySize, inferEntrySizeAmended, List.length_cons,
      List.length_nil]
    split
    · rfl
    · norm_num [headerSize, entryPointerSize]
  | p0 :: p1 :: rest => rfl

/-! ### Claim C4: dummy8 padding validation -/

/-- C4 counterexample: a padding field with sub-byte bit width (`dummy8`,
`bit_size = 2`) is consumed through the bit cursor without any zero check:
decoding the non-zero byte 3 succeeds with value 3 and does not clear the
cursor, contradicting the claim that every `dummy8` field fails on non-zero
bytes. -/
theorem c4_padding_counterexample :
    unpackField specRegistry "TBL" "E" ⟨"p", "p", "dummy8", 2, 1⟩ ⟨[], 0⟩ [3]
      = .ok (.vint 3, ⟨natToBits 3 8, 2⟩, [])
    ∧ (3 : Nat) ≠ 0 := by
  constructor
  · rfl
  · decide

/-- C4 (amended): for every padding field (`dummy8`) whose bit width is at
least 8 — sub-byte `dummy8` fields are instead consumed via the bit cursor —
decoding clears the bit cursor, reads the declared byte width, stores the
zero bytes, and succeeds exactly when the bytes read are all zero (failing
with a structural error naming table, record and field otherwise). -/
theorem c4_padding_amended (reg : List (String × ValueType))
    (tn en : String) (f : ParamDefField) (bf : BitField) (buffer : List Nat)
    (hbit : 8 ≤ f.bit_size) (hdummy : f.internal_type = "dummy8") :
    unpackField reg tn en f bf buffer =
      if buffer.take f.size = List.replicate f.size 0 then
        .ok (.vbytes (List.replicate f.size 0), BitField.clear, buffer.drop f.size)
      else .error (.padNotNull tn en f.name) := by
  unfold unpackField
  have h1 : ¬ f.bit_size < 8 := by omega
  rw [if_neg h1, if_pos hdummy]
  by_cases h : List.take f.size buffer = List.replicate f.size 0
  · simp [h]
  · simp [h]

/-- Witness for C4's amended claim: a 2-byte byte-aligned `dummy8` field on
the zero buffer `[0, 0]`, and the source-level failure on `[0, 1]`. -/
theorem c4_padding_amended_witness :
    8 ≤ (⟨"pad", "pad", "dummy8", 8, 2⟩ : ParamDefField).bit_size
    ∧ (⟨"pad", "pad", "dummy8", 8, 2⟩ : ParamDefField).internal_type = "dummy8"
    ∧ unpackField specRegistry "TBL" "E" ⟨"pad", "pad", "dummy8", 8, 2⟩ ⟨[], 0⟩ [0, 0]
        = (if List.take 2 [0, 0] = List.replicate 2 0 then
            .ok (.vbytes (List.replicate 2 0), BitField.clear, List.drop 2 [0, 0])
          else .error (.padNotNull "TBL" "E" "pad"))
    ∧ unpackField specRegistry "TBL" "E" ⟨"pad", "pad", "dummy8", 8, 2⟩ ⟨[], 0⟩ [0, 1]
        = .error (.padNotNull "TBL" "E" "pad") :=
  ⟨by decide, by decide,
    c4_padding_amended specRegistry "TBL" "E" ⟨"pad", "pad", "dummy8", 8, 2⟩
      ⟨[], 0⟩ [0, 0] (by decide) rfl,
    rfl⟩

/-! ### Claim C6: tolerated substitution on structural decode failure -/

/-- C6: when the binary unpack of a byte-aligned scalar field fails
structurally (fewer bytes remain than the value type's width, the `struct`
byte-count failure), the decoder substitutes float 1.0 and continues exactly
when the field's debug name is `inverseToneMapMul` or `sfxMultiplier`; every
other field's structural failure is fatal. -/
theorem c6_tolerated_substitution (reg : List (String × ValueType))
    (tn en : String) (f : ParamDefField) (bf : BitField) (buffer : List Nat)
    (ft : ValueType)
    (hbit : 8 ≤ f.bit_size) (hdummy : f.internal_type ≠ "dummy8")
    (hlookup : lookupType reg f = some ft)
    (hshort : buffer.length < ft.size) :
    unpackField reg tn en f bf buffer =
      if f.debug_name = "inverseToneMapMul" ∨ f.debug_name = "sfxMultiplier" then
        .ok (.vfloat float32OneBits, BitField.clear, buffer.drop ft.size)
      else .error (.structFail f.name) := by
  unfold unpackField
  have h1 : ¬ f.bit_size < 8 := by omega
  have hlen : (buffer.take ft.size).length ≠ ft.size := by
    simp only [List.length_take]
    omega
  have hdec : decodeScalar ft (buffer.take ft.size) = none := by
    unfold decodeScalar
    rw [if_neg hlen]
  simp only [h1, if_false, hdummy, hlookup, hdec]
  by_cases hd : f.debug_name = "inverseToneMapMul" ∨ f.debug_name = "sfxMultiplier"
  · have ht : tolerated f.debug_name = true := by
      rcases hd with h | h <;> simp [tolerated, h]
    simp [ht, hd]
  · have ht : tolerated f.debug_name = false := by
      push_neg at hd
      simp [tolerated, hd.1, hd.2]
    push_neg at hd
    simp [ht, hd.1, hd.2]

/-- Witness for C6: a 4-byte float field named `inverseToneMapMul` decoded
from a 2-byte buffer substitutes 1.0; a sibling field with an ordinary debug
name fails. -/
theorem c6_tolerated_substitution_witness :
    8 ≤ (⟨"x", "inverseToneMapMul", "f32", 8, 4⟩ : ParamDefField).bit_size
    ∧ (⟨"x", "inverseToneMapMul", "f32", 8, 4⟩ : ParamDefField).internal_type ≠ "dummy8"
    ∧ lookupType specRegistry ⟨"x", "inverseToneMapMul", "f32", 8, 4⟩ = some f32
    ∧ ([1, 2] : List Nat).length < f32.size
    ∧ unpackField specRegistry "TBL" "E" ⟨"x", "inverseToneMapMul", "f32", 8, 4⟩ ⟨[], 0⟩ [1, 2]
        = (if ("inverseToneMapMul" : String) = "inverseToneMapMul"
              ∨ ("inverseToneMapMul" : String) = "sfxMultiplier" then
            .ok (.vfloat float32OneBits, BitField.clear, List.drop f32.size [1, 2])
          else .error (.structFail "x"))
    ∧ unpackField specRegistry "TBL" "E" ⟨"y", "plainName", "f32", 8, 4⟩ ⟨[], 0⟩ [1, 2]
        = .error (.structFail "y") :=
  ⟨by decide, by decide, by decide, by decide,
    c6_tolerated_substitution specRegistry "TBL" "E"
      ⟨"x", "inverseToneMapMul", "f32", 8, 4⟩ ⟨[], 0⟩ [1, 2] f32
      (by decide) (by decide) (by decide) (by decide),
    rfl⟩

/-! ### Claim C10: `__getitem__` key handling -/

theorem lookup_eq_none_iff {s : String} {l : List (String × Value)} :
    List.lookup s l = none ↔ s ∉ l.map Prod.fst := by
  induction l with
  | nil => simp [List.lookup]
  | cons p rest ih =>
    obtain ⟨k, v⟩ := p
    by_cases h : s = k
    · subst h
      simp [List.lookup]
    · have hne : (s == k) = false := beq_eq_false_iff_ne.mpr h
      simp [List.lookup, hne, ih, h]

theorem pyListGet_none_iff (l : List String) (i : Int) :
    pyListGet l i = none ↔ (i < -(l.length : Int) ∨ (l.length : Int) ≤ i) := by
  unfold pyListGet
  by_cases h0 : 0 ≤ i
  · rw [if_pos h0, List.get?_eq_none]
    omega
  · rw [if_neg h0]
    by_cases h1 : 0 ≤ i + l.length
    · rw [if_pos h1, List.get?_eq_none]
      omega
    · rw [if_neg h1]
      simp only [true_iff]
      omega

theorem pyListGet_mem {l : List String} {i : Int} {s : String}
    (h : pyListGet l i = some s) : s ∈ l := by
  unfold pyListGet at h
  split at h
  · exact List.get?_mem h
  · split at h
    · exact List.get?_mem h
    · exact absurd h (by simp)

theorem pyListGet_neg (l : List String) (j : Int)
    (hj1 : -(l.length : Int) ≤ j) (hj2 : j < 0) :
    pyListGet l j = pyListGet l (j + l.length) := by
  unfold pyListGet
  have h0 : ¬ 0 ≤ j := by omega
  have h1 : 0 ≤ j + l.length := by omega
  rw [if_neg h0, if_pos h1, if_pos h1]

/-- C10: looking a field up with a key that is neither an int nor a str
returns `None` without raising; a `KeyError` arises exactly for an integer
index out of Python's list range or for an absent string name; and a
negative integer index resolves from the end of the field order. -/
theorem c10_getitem_key_handling (fields : List (String × Value))
    (en : String) (i : Int) (s : String) (j : Int)
    (hj1 : -(fields.length : Int) ≤ j) (hj2 : j < 0) :
    ParamEntry.getItem fields en .kother = .ok none
    ∧ (isError (ParamEntry.getItem fields en (.kint i)) = true
        ↔ (i < -(fields.length : Int) ∨ (fields.length : Int) ≤ i))
    ∧ (isError (ParamEntry.getItem fields en (.kstr s)) = true
        ↔ s ∉ fields.map Prod.fst)
    ∧ ParamEntry.getItem fields en (.kint j)
        = ParamEntry.getItem fields en (.kint (j + fields.length)) := by
  have hmaplen : (fields.map Prod.fst).length = fields.length := by simp
  refine ⟨rfl, ?_, ?_, ?_⟩
  · simp only [ParamEntry.getItem]
    cases hp : pyListGet (fields.map Prod.fst) i with
    | none =>
      have := (pyListGet_none_iff (fields.map Prod.fst) i).mp hp
      rw [hmaplen] at this
      simpa [isError] using this
    | some name =>
      have hmem : name ∈ fields.map Prod.fst := pyListGet_mem hp
      have hlk : List.lookup name fields ≠ none := by
        rw [ne_eq, lookup_eq_none_iff]
        simpa using hmem
      have hrange : ¬ (i < -(fields.length : Int) ∨ (fields.length : Int) ≤ i) := by
        intro hcon
        have hcon2 : pyListGet (fields.map Prod.fst) i = none := by
          rw [pyListGet_none_iff, hmaplen]
          exact hcon
        rw [hcon2] at hp
        exact absurd hp (by simp)
      cases hv : List.lookup name fields with
      | none => exact absurd hv hlk
      | some v => simpa [isError, hv] using hrange
  · simp only [ParamEntry.getItem]
    cases hv : List.lookup s fields with
    | none =>
      have := lookup_eq_none_iff.mp hv
      simpa [isError] using this
    | some v =>
      have hmem : ¬ s ∉ fields.map Prod.fst := by
        intro hcon
        rw [← lookup_eq_none_iff] at hcon
        rw [hv] at hcon
        exact absurd hcon (by simp)
      simpa [isError] using hmem
  · simp only [ParamEntry.getItem]
    rw [pyListGet_neg (fields.map Prod.fst) j (by rw [hmaplen]; exact hj1) hj2,
      hmaplen]
    cases hp : pyListGet (fields.map Prod.fst) (j + fields.length) with
    | none =>
      have hr := (pyListGet_none_iff (fields.map Prod.fst) (j + fields.length)).mp hp
      rw [hmaplen] at hr
      omega
    | some name => rfl

/-- Witness for C10 on a two-field record, with the out-of-range index 5,
the absent name `zz` and the negative index -1. -/
theorem c10_getitem_key_handling_witness :
    -(([("a", Value.vint 1), ("b", Value.vint 2)].length : Int)) ≤ -1
    ∧ (-1 : Int) < 0
    ∧ (ParamEntry.getItem [("a", Value.vint 1), ("b", Value.vint 2)] "E" .kother = .ok none
      ∧ (isError (ParamEntry.getItem [("a", Value.vint 1), ("b", Value.vint 2)] "E" (.kint 5)) = true
          ↔ ((5 : Int) < -(([("a", Value.vint 1), ("b", Value.vint 2)].length : Int))
              ∨ (([("a", Value.vint 1), ("b", Value.vint 2)].length : Int)) ≤ 5))
      ∧ (isError (ParamEntry.getItem [("a", Value.vint 1), ("b", Value.vint 2)] "E" (.kstr "zz")) = true
          ↔ "zz" ∉ ([("a", Value.vint 1), ("b", Value.vint 2)].map Prod.fst))
      ∧ ParamEntry.getItem [("a", Value.vint 1), ("b", Value.vint 2)] "E" (.kint (-1))
          = ParamEntry.getItem [("a", Value.vint 1), ("b", Value.vint 2)] "E"
              (.kint (-1 + [("a", Value.vint 1), ("b", Value.vint 2)].length))) :=
  ⟨by decide, by decide,
    c10_getitem_key_handling [("a", Value.vint 1), ("b", Value.vint 2)] "E" 5 "zz" (-1)
      (by decide) (by decide)⟩

/-! ### Claim C7: which fields end up in the record's mapping -/

theorem odInsert_append {l : List (String × Value)} {k : String} {v : Value}
    (h : k ∉ l.map Prod.fst) : odInsert l k v = l ++ [(k, v)] := by
  induction l with
  | nil => rfl
  | cons p rest ih =>
    obtain ⟨k0, v0⟩ := p
    have hne : k0 ≠ k := by
      intro hcon
      exact h (by simp [hcon])
    simp only [odInsert, if_neg hne, List.cons_append, List.cons.injEq, true_and]
    exact ih (fun hcon => h (by simp at hcon ⊢; exact Or.inr hcon))

/-- Decoding appends one mapping entry per schema field, in schema order:
the final key list is the accumulator's keys followed by every schema field
name (padding fields included). -/
theorem unpackFields_keys (reg : List (String × ValueType)) (tn en : String) :
    ∀ (fs : List ParamDefField) (acc : List (String × Value)) (bf : BitField)
      (buffer : List Nat) (res : List (String × Value)) (bfR : BitField)
      (rest : List Nat),
      (∀ f ∈ fs, f.name ∉ acc.map Prod.fst) →
      (fs.map (fun f => f.name)).Nodup →
      unpackFields reg tn en fs acc bf buffer = .ok (res, bfR, rest) →
      res.map Prod.fst = acc.map Prod.fst ++ fs.map (fun f => f.name) := by
  intro fs
  induction fs with
  | nil =>
    intro acc bf buffer res bfR rest hdisj hnodup h
    simp only [unpackFields] at h
    injection h with h
    injection h with h1 h
    rw [← h1]
    simp
  | cons f fs ih =>
    intro acc bf buffer res bfR rest hdisj hnodup h
    simp only [unpackFields] at h
    split at h
    · simp at h
    · next v bf2 buf2 hu =>
      have hk : f.name ∉ acc.map Prod.fst := hdisj f (by simp)
      rw [odInsert_append hk] at h
      have hdisj2 : ∀ g ∈ fs, g.name ∉ (acc ++ [(f.name, v)]).map Prod.fst := by
        intro g hg
        simp only [List.map_append, List.map_cons, List.map_nil, List.mem_append,
          List.mem_singleton]
        rintro (hin | hin)
        · exact hdisj g (by simp [hg]) hin
        · have hf : f.name ∈ fs.map (fun f => f.name) := by
            rw [← hin]
            exact List.mem_map_of_mem _ hg
          simp only [List.map_cons, List.nodup_cons] at hnodup
          exact hnodup.1 (by simpa using hf)
      have hnodup2 : (fs.map (fun f => f.name)).Nodup := by
        simp only [List.map_cons, List.nodup_cons] at hnodup
        exact hnodup.2
      have hres := ih (acc ++ [(f.name, v)]) bf2 buf2 res bfR rest hdisj2 hnodup2 h
      rw [hres]
      simp

/-- C7 counterexample: a schema consisting of one byte-aligned `dummy8`
field.  The claim predicts an empty field mapping (schema minus padding
fields); the source stores the padding field (holding its zero bytes), so
the key set is `["pad"]`. -/
theorem c7_padding_retained_counterexample :
    ParamEntry.unpack specRegistry "TBL" "E"
        [⟨"pad", "pad", "dummy8", 8, 2⟩] [0, 0]
      = .ok ([("pad", .vbytes [0, 0])], BitField.clear, [])
    ∧ (([⟨"pad", "pad", "dummy8", 8, 2⟩] : List ParamDefField).filter
        (fun f => !(f.internal_type == "dummy8"))).map (fun f => f.name) = []
    ∧ (["pad"] : List String) ≠ [] := by
  refine ⟨rfl, rfl, by decide⟩

/-- C7 (amended): every schema field — padding fields included, which keep
their raw zero bytes as value — is added to the record's mapping: for any
successful decode over a schema with distinct field names, the mapping's key
list equals the full schema field list. -/
theorem c7_keys_match_schema (reg : List (String × ValueType))
    (tn en : String) (schema : List ParamDefField) (buffer : List Nat)
    (res : List (String × Value)) (bfR : BitField) (rest : List Nat)
    (hnodup : (schema.map (fun f => f.name)).Nodup)
    (hunpack : ParamEntry.unpack reg tn en schema buffer = .ok (res, bfR, rest)) :
    res.map Prod.fst = schema.map (fun f => f.name) := by
  have := unpackFields_keys reg tn en schema [] ⟨[], 0⟩ buffer res bfR rest
    (by intro f hf; simp) hnodup hunpack
  simpa using this

/-- Witness for C7's amended claim: a u8 field followed by a `dummy8` field;
both names appear in the decoded mapping. -/
theorem c7_keys_match_schema_witness :
    (([⟨"a", "a", "u8", 8, 1⟩, ⟨"pad", "pad", "dummy8", 8, 1⟩] : List ParamDefField).map
        (fun f => f.name)).Nodup
    ∧ ParamEntry.unpack specRegistry "TBL" "E"
        [⟨"a", "a", "u8", 8, 1⟩, ⟨"pad", "pad", "dummy8", 8, 1⟩] [7, 0]
      = .ok ([("a", .vint 7), ("pad", .vbytes [0])], BitField.clear, [])
    ∧ ([("a", Value.vint 7), ("pad", Value.vbytes [0])].map Prod.fst
        = ([⟨"a", "a", "u8", 8, 1⟩, ⟨"pad", "pad", "dummy8", 8, 1⟩] : List ParamDefField).map
            (fun f => f.name)) :=
  ⟨by decide, rfl,
    c7_keys_match_schema specRegistry "TBL" "E"
      [⟨"a", "a", "u8", 8, 1⟩, ⟨"pad", "pad", "dummy8", 8, 1⟩] [7, 0]
      [("a", .vint 7), ("pad", .vbytes [0])] BitField.clear []
      (by decide) rfl⟩

/-! ### Claim C5: range/type validation on encode -/

/-- C5 counterexample: `ParamEntry.pack` never sees the id under which a
record is stored, so the range/type error cannot name the record id: storing
the same out-of-range record under id 7 and under id 99 produces the
identical error, which names the record's display name `Bob` instead. -/
theorem c5_range_error_counterexample :
    ParamTable.pack specRegistry
        ⟨"TBL", [0, 1, 2], some 0,
          [(7, ⟨"Bob", [66], [⟨"fld", "fld", "u8", 8, 1⟩], [("fld", .vint 256)]⟩)]⟩ true
      = .error (.entryError (.outOfRange "TBL" "Bob" "fld" (.vint 256)))
    ∧ ParamTable.pack specRegistry
        ⟨"TBL", [0, 1, 2], some 0,
          [(99, ⟨"Bob", [66], [⟨"fld", "fld", "u8", 8, 1⟩], [("fld", .vint 256)]⟩)]⟩ true
      = .error (.entryError (.outOfRange "TBL" "Bob" "fld" (.vint 256)))
    ∧ (7 : Int) ≠ 99 := by
  refine ⟨rfl, rfl, by decide⟩

/-- C5 (amended): for a byte-aligned scalar field, encoding fails with a
range/type error — naming the table, the record's display name (not its id,
which the record codec never receives), the field and the offending value —
exactly when the stored value's kind mismatches the value type or its
numeric value leaves the inclusive range `[min, max]`; encoding at exactly
the maximum and exactly the minimum succeeds, and at `max + 1` fails. -/
theorem c5_range_type_validation_amended (reg : List (String × ValueType))
    (tn en : String) (schema : List ParamDefField) (f : ParamDefField)
    (ft : ValueType) (bf : BitField) (out : List Nat) (v : Value)
    (hfind : schema.find? (fun g => g.name == f.name) = some f)
    (hbit : 8 ≤ f.bit_size)
    (hdummy : f.internal_type ≠ "dummy8")
    (hlookup : lookupType reg f = some ft)
    (hlayout : ft.layout = .uint ∨ ft.layout = .sint)
    (hminmax : ft.min ≤ ft.max) :
    packFields reg tn en schema [(f.name, v)] bf out =
      (if kindOk ft v then
        (if inRange ft v then .ok ((padOut bf out).1 ++ encodeScalar ft v)
         else .error (.outOfRange tn en f.name v))
       else .error (.badType tn en f.name v))
    ∧ packFields reg tn en schema [(f.name, .vint ft.max)] bf out
        = .ok ((padOut bf out).1 ++ encodeScalar ft (.vint ft.max))
    ∧ packFields reg tn en schema [(f.name, .vint ft.min)] bf out
        = .ok ((padOut bf out).1 ++ encodeScalar ft (.vint ft.min))
    ∧ packFields reg tn en schema [(f.name, .vint (ft.max + 1))] bf out
        = .error (.outOfRange tn en f.name (.vint (ft.max + 1))) := by
  have hbit2 : ¬ f.bit_size < 8 := by omega
  have main : ∀ u : Value, packFields reg tn en schema [(f.name, u)] bf out =
      (if kindOk ft u then
        (if inRange ft u then .ok ((padOut bf out).1 ++ encodeScalar ft u)
         else .error (.outOfRange tn en f.name u))
       else .error (.badType tn en f.name u)) := by
    intro u
    simp only [packFields, hfind, hbit2, if_false, hdummy, hlookup]
  refine ⟨main v, ?_, ?_, ?_⟩
  · rw [main (.vint ft.max)]
    rcases hlayout with h | h <;>
      simp [kindOk, h, inRange, hminmax]
  · rw [main (.vint ft.min)]
    rcases hlayout with h | h <;>
      simp [kindOk, h, inRange, hminmax]
  · rw [main (.vint (ft.max + 1))]
    have hout : ¬ (ft.min ≤ ft.max + 1 ∧ ft.max + 1 ≤ ft.max) := by omega
    rcases hlayout with h | h <;>
      simp [kindOk, h, inRange, hout]

/-- Witness for C5's amended claim: the u8 field `fld` with a float value
(kind mismatch) at the boundaries 0, 255 and the failing 256. -/
theorem c5_range_type_validation_amended_witness :
    ([(⟨"fld", "fld", "u8", 8, 1⟩ : ParamDefField)].find?
        (fun g => g.name == "fld") = some ⟨"fld", "fld", "u8", 8, 1⟩)
    ∧ lookupType specRegistry ⟨"fld", "fld", "u8", 8, 1⟩ = some ⟨1, .uint, 0, 255⟩
    ∧ ((packFields specRegistry "TBL" "Bob" [⟨"fld", "fld", "u8", 8, 1⟩]
          [("fld", .vfloat 0)] ⟨[], 0⟩ [] =
        (if kindOk ⟨1, .uint, 0, 255⟩ (.vfloat 0) then
          (if inRange ⟨1, .uint, 0, 255⟩ (.vfloat 0) then
            .ok ((padOut ⟨[], 0⟩ []).1 ++ encodeScalar ⟨1, .uint, 0, 255⟩ (.vfloat 0))
           else .error (.outOfRange "TBL" "Bob" "fld" (.vfloat 0)))
         else .error (.badType "TBL" "Bob" "fld" (.vfloat 0))))
      ∧ packFields specRegistry "TBL" "Bob" [⟨"fld", "fld", "u8", 8, 1⟩]
          [("fld", .vint (255 : Int))] ⟨[], 0⟩ []
        = .ok ((padOut ⟨[], 0⟩ []).1 ++ encodeScalar ⟨1, .uint, 0, 255⟩ (.vint (255 : Int)))
      ∧ packFields specRegistry "TBL" "Bob" [⟨"fld", "fld", "u8", 8, 1⟩]
          [("fld", .vint (0 : Int))] ⟨[], 0⟩ []
        = .ok ((padOut ⟨[], 0⟩ []).1 ++ encodeScalar ⟨1, .uint, 0, 255⟩ (.vint (0 : Int)))
      ∧ packFields specRegistry "TBL" "Bob" [⟨"fld", "fld", "u8", 8, 1⟩]
          [("fld", .vint ((255 : Int) + 1))] ⟨[], 0⟩ []
        = .error (.outOfRange "TBL" "Bob" "fld" (.vint ((255 : Int) + 1)))) :=
  ⟨by decide, by decide,
    c5_range_type_validation_amended specRegistry "TBL" "Bob"
      [⟨"fld", "fld", "u8", 8, 1⟩] ⟨"fld", "fld", "u8", 8, 1⟩ ⟨1, .uint, 0, 255⟩
      ⟨[], 0⟩ [] (.vfloat 0) (by decide) (by decide) (by decide) (by decide)
      (Or.inl rfl) (by decide)⟩

/-! ### Claim C9: serializing a dict-constructed table -/

/-- C9 counterexample: a table built directly from a prepared id-to-record
mapping (one well-formed u8 record) cannot be packed — the header stage
reads `magic[0]`, and the dict constructor left `magic` empty. -/
theorem c9_dict_pack_counterexample :
    ParamTable.pack specRegistry
        (PTable.ofDict [(1, ⟨"A", [65], [⟨"fld", "fld", "u8", 8, 1⟩],
          [("fld", .vint 5)]⟩)]) true
      = .error .magicMissing := rfl

/-- C9 (amended): `pack` on a table constructed from a prepared
id-to-record mapping always fails: either an entry fails to encode, or the
header stage fails on the uninitialized magic values (`magic` is `[]` after
dict construction, and `self.__magic[0]` raises).  Only tables whose
magic/unknown metadata was populated (by parsing) can be serialized. -/
theorem c9_dict_pack_always_fails (reg : List (String × ValueType))
    (entries : List (Int × TableEntry)) (sortFlag : Bool) :
    isError (ParamTable.pack reg (PTable.ofDict entries) sortFlag) = true := by
  simp only [ParamTable.pack, PTable.ofDict]
  split
  · rfl
  · rfl

/-! ### Claim C1: record-level round trip — scalar lemmas -/

theorem mem_of_lookup_str {k : String} {l : List (String × ValueType)}
    {v : ValueType} (h : List.lookup k l = some v) : (k, v) ∈ l := by
  induction l with
  | nil => simp [List.lookup] at h
  | cons p rest ih =>
    obtain ⟨k0, v0⟩ := p
    by_cases he : k = k0
    · subst he
      simp [List.lookup] at h
      simp [h]
    · have hne : (k == k0) = false := beq_eq_false_iff_ne.mpr he
      simp only [List.lookup, hne] at h
      exact List.mem_cons_of_mem _ (ih h)

theorem lookup_sound {reg : List (String × ValueType)} {f : ParamDefField}
    {vt : ValueType} (hreg : RegistrySound reg)
    (h : lookupType reg f = some vt) : vt.sound = true := by
  cases hl : List.lookup f.internal_type reg with
  | some vt0 =>
    have h2 : vt = vt0 := by
      simp only [lookupType, hl] at h
      injection h with h
      exact h.symm
    subst h2
    exact hreg _ (mem_of_lookup_str hl)
  | none =>
    simp only [lookupType, hl] at h
    split at h
    · injection h with h
      subst h
      decide
    · simp at h

theorem decodeScalar_some_length {vt : ValueType} {data : List Nat} {v : Value}
    (h : decodeScalar vt data = some v) : data.length = vt.size := by
  unfold decodeScalar at h
  split at h
  · assumption
  · simp at h

/-- A sound value type's decode result passes the encoder's kind and range
checks and re-encodes to the original bytes. -/
theorem scalar_roundtrip {vt : ValueType} {data : List Nat} {v : Value}
    (hsound : vt.sound = true)
    (hbytes : ∀ b ∈ data, b < 256)
    (hdec : decodeScalar vt data = some v) :
    kindOk vt v = true ∧ inRange vt v = true ∧ encodeScalar vt v = data := by
  have hlen : data.length = vt.size := decodeScalar_some_length hdec
  have hlt : leNat data < 2 ^ (8 * vt.size) := by
    have h1 : leNat data < 256 ^ data.length := leNat_lt hbytes
    have h2 : (256 : Nat) ^ data.length = 2 ^ (8 * vt.size) := by
      rw [hlen, show (256 : Nat) = 2 ^ 8 from rfl, ← pow_mul]
    rw [← h2]
    exact h1
  have hltI : ((leNat data : Nat) : Int) < (2 : Int) ^ (8 * vt.size) := by
    exact_mod_cast hlt
  have hge0 : (0 : Int) ≤ ((leNat data : Nat) : Int) := Int.ofNat_nonneg _
  unfold decodeScalar at hdec
  rw [if_pos hlen] at hdec
  cases hl : vt.layout with
  | uint =>
    rw [hl] at hdec
    injection hdec with hdec
    subst hdec
    have hs : vt.min ≤ 0 ∧ (2 : Int) ^ (8 * vt.size) - 1 ≤ vt.max := by
      have := hsound
      unfold ValueType.sound at this
      rw [hl] at this
      exact of_decide_eq_true this
    refine ⟨by simp [kindOk, hl], ?_, ?_⟩
    · simp only [inRange, decide_eq_true_eq]
      constructor
      · linarith [hs.1]
      · linarith [hs.2]
    · simp only [encodeScalar, hl, intToLE]
      rw [Int.emod_eq_of_lt hge0 hltI]
      rw [Int.toNat_natCast, ← hlen]
      exact natToLE_leNat hbytes
  | sint =>
    rw [hl] at hdec
    injection hdec with hdec
    subst hdec
    have hs : vt.min ≤ -((2 : Int) ^ (8 * vt.size - 1)) ∧
        (2 : Int) ^ (8 * vt.size - 1) - 1 ≤ vt.max := by
      have := hsound
      unfold ValueType.sound at this
      rw [hl] at this
      exact of_decide_eq_true this
    have hA0 : (0 : Int) < (2 : Int) ^ (8 * vt.size - 1) := by positivity
    have hAB : (2 : Int) ^ (8 * vt.size) ≤ 2 * 2 ^ (8 * vt.size - 1) := by
      cases hsz : vt.size with
      | zero => norm_num
      | succ m =>
        have hexp : 8 * (m + 1) = 8 * (m + 1) - 1 + 1 := by omega
        have he : (2 : Int) ^ (8 * (m + 1)) = 2 ^ (8 * (m + 1) - 1) * 2 := by
          calc (2 : Int) ^ (8 * (m + 1)) = 2 ^ (8 * (m + 1) - 1 + 1) := by rw [← hexp]
            _ = 2 ^ (8 * (m + 1) - 1) * 2 := pow_succ 2 _
        rw [he]
        linarith
    refine ⟨by simp [kindOk, hl], ?_, ?_⟩
    · simp only [inRange, decide_eq_true_eq]
      unfold sintOfNat
      split
      · next hcase =>
        have hcI : ((leNat data : Nat) : Int) < (2 : Int) ^ (8 * vt.size - 1) := by
          exact_mod_cast hcase
        constructor
        · linarith [hs.1]
        · linarith [hs.2]
      · next hcase =>
        have hcI : (2 : Int) ^ (8 * vt.size - 1) ≤ ((leNat data : Nat) : Int) := by
          exact_mod_cast Nat.le_of_not_lt hcase
        constructor
        · linarith [hs.1]
        · linarith [hs.2, hA0]
    · simp only [encodeScalar, hl, intToLE]
      unfold sintOfNat
      split
      · rw [Int.emod_eq_of_lt hge0 hltI]
        rw [Int.toNat_natCast, ← hlen]
        exact natToLE_leNat hbytes
      · have he2 : ((leNat data : Nat) : Int) - (2 : Int) ^ (8 * vt.size)
            = ((leNat data : Nat) : Int) + (2 : Int) ^ (8 * vt.size) * (-1) := by
          ring
        rw [he2, Int.add_mul_emod_self_left, Int.emod_eq_of_lt hge0 hltI]
        rw [Int.toNat_natCast, ← hlen]
        exact natToLE_leNat hbytes
  | float =>
    rw [hl] at hdec
    injection hdec with hdec
    subst hdec
    refine ⟨by simp [kindOk, hl], by simp [inRange], ?_⟩
    simp only [encodeScalar, hl]
    rw [← hlen]
    exact natToLE_leNat hbytes

/-! ### Claim C1: round-trip infrastructure -/

/-- All buffer entries are bytes. -/
def allBytes (l : List Nat) : Prop := ∀ b ∈ l, b < 256

/-- No field of the schema carries one of the two tolerated debug names, so
the substitution path can never fire. -/
def noTolerated (fs : List ParamDefField) : Prop :=
  ∀ f ∈ fs, tolerated f.debug_name = false

/-- The spec's schema contract for sub-byte fields (§4.1/§4.3): tracking the
bit offset within the current byte, every sub-byte field fits inside its
byte, every byte-aligned field starts byte-aligned, and the record ends
byte-aligned. -/
def wfBits : List ParamDefField → Nat → Bool
  | [], k => k == 0
  | f :: fs, k =>
    if f.bit_size < 8 then
      decide (k + f.bit_size ≤ 8) && wfBits fs ((k + f.bit_size) % 8)
    else (k == 0) && wfBits fs 0

/-- Decoder/encoder cursor correspondence during the field loop: either both
cursors are byte-aligned, or the decoder holds byte `b` at offset `k` while
the encoder has re-accumulated exactly the first `k` bits of `b` (and the
byte `b`, already consumed from the buffer, is still owed to the encoder's
output). -/
def StateOk (fs : List ParamDefField) (bf bfP : BitField) (extra : List Nat) :
    Prop :=
  (bf = ⟨[], 0⟩ ∧ bfP.field = [] ∧ wfBits fs 0 = true ∧ extra = [])
  ∨ (∃ b k, b < 256 ∧ 0 < k ∧ k < 8 ∧ bf = ⟨natToBits b 8, k⟩
      ∧ bfP.field = (natToBits b 8).take k ∧ wfBits fs k = true ∧ extra = [b])

theorem find_self_of_nodup {schema : List ParamDefField}
    (h : (schema.map (fun f => f.name)).Nodup) :
    ∀ f ∈ schema, schema.find? (fun g => g.name == f.name) = some f := by
  induction schema with
  | nil => simp
  | cons f0 rest ih =>
    intro f hf
    rcases List.mem_cons.mp hf with he | hmem
    · subst he
      simp [List.find?_cons_of_pos]
    · simp only [List.map_cons, List.nodup_cons] at h
      have hne : f0.name ≠ f.name := by
        intro hcon
        exact h.1 (hcon ▸ List.mem_map_of_mem _ hmem)
      have hbeq : (f0.name == f.name) = false := beq_eq_false_iff_ne.mpr hne
      rw [List.find?_cons_of_neg _ (by simp [hbeq])]
      exact ih h.2 f hmem

theorem allBytes_take {l : List Nat} (h : allBytes l) (n : Nat) :
    allBytes (l.take n) :=
  fun b hb => h b (List.mem_of_mem_take hb)

theorem allBytes_drop {l : List Nat} (h : allBytes l) (n : Nat) :
    allBytes (l.drop n) :=
  fun b hb => h b (List.mem_of_mem_drop hb)

/-- Decoding a sub-byte field from a byte-aligned cursor consumes one byte
and extracts its low `w` bits. -/
theorem bit_unpack_aligned {w : Nat} {buffer : List Nat} {v2 : Nat}
    {bf2 : BitField} {buf2 : List Nat} (hw : w < 8)
    (h : BitField.unpack ⟨[], 0⟩ buffer w = some (v2, bf2, buf2)) :
    ∃ b0, buffer = b0 :: buf2
      ∧ 1 ≤ w
      ∧ v2 = bitsToNat ((natToBits b0 8).take w)
      ∧ bf2 = ⟨natToBits b0 8, w⟩ := by
  cases buffer with
  | nil => simp [BitField.unpack] at h
  | cons b0 buf3 =>
    simp only [BitField.unpack] at h
    unfold unpackFromBits at h
    simp only [List.drop_zero] at h
    split at h
    · simp at h
    · next hne =>
      rw [if_neg (by omega : ¬ 8 ≤ 0 + w)] at h
      injection h with h
      obtain ⟨h1, h2⟩ := Prod.mk.injEq .. ▸ h
      have hw1 : 1 ≤ w := by
        by_contra hcon
        have hz : w = 0 := by omega
        subst hz
        simp at hne
      injection h2 with h2 h3
      refine ⟨b0, by rw [h3], hw1, h1.symm, ?_⟩
      rw [← h2]
      simp [Nat.zero_add]

/-- Decoding a sub-byte field mid-byte consumes no buffer byte, extracts
bits `[k, k+w)` of the held byte, and clears the cursor exactly when the
byte is completed. -/
theorem bit_unpack_mid {w k b : Nat} {buffer : List Nat} {v2 : Nat}
    {bf2 : BitField} {buf2 : List Nat}
    (hk8 : k < 8) (hkw : k + w ≤ 8)
    (h : BitField.unpack ⟨natToBits b 8, k⟩ buffer w = some (v2, bf2, buf2)) :
    buf2 = buffer
    ∧ 1 ≤ w
    ∧ v2 = bitsToNat (((natToBits b 8).drop k).take w)
    ∧ bf2 = (if k + w = 8 then (⟨[], 0⟩ : BitField) else ⟨natToBits b 8, k + w⟩) := by
  have hlen8 : (natToBits b 8).length = 8 := natToBits_length b 8
  have hstep : BitField.unpack ⟨natToBits b 8, k⟩ buffer w
      = unpackFromBits (natToBits b 8) k w buffer := by
    cases hnb : natToBits b 8 with
    | nil =>
      rw [hnb] at hlen8
      simp at hlen8
    | cons x xs => rfl
  rw [hstep] at h
  simp only [unpackFromBits] at h
  by_cases hw0 : w = 0
  · subst hw0
    simp at h
  · have hw1 : 1 ≤ w := by omega
    have hslice_ne : (List.take w ((natToBits b 8).drop k)) ≠ [] := by
      intro hcon
      have hlc := congrArg List.length hcon
      rw [List.length_take, List.length_drop, hlen8] at hlc
      simp at hlc
      omega
    rw [if_neg hslice_ne] at h
    by_cases hc : 8 ≤ k + w
    · have heq : k + w = 8 := by omega
      rw [if_pos hc] at h
      injection h with h
      obtain ⟨h1, h2⟩ := Prod.mk.injEq .. ▸ h
      injection h2 with h2 h3
      refine ⟨h3.symm, hw1, h1.symm, ?_⟩
      rw [if_pos heq, ← h2, heq]
    · rw [if_neg hc] at h
      injection h with h
      obtain ⟨h1, h2⟩ := Prod.mk.injEq .. ▸ h
      injection h2 with h2 h3
      refine ⟨h3.symm, hw1, h1.symm, ?_⟩
      rw [if_neg (by omega : ¬ k + w = 8), ← h2]

/-- Packing bits that do not complete a byte appends them to the pending
buffer without emitting. -/
theorem bitfield_pack_append {bfP : BitField} {pfx slice : List Bool} {w : Nat}
    (hbfP : bfP.field = pfx)
    (hslice : slice.length = w) (hw1 : 1 ≤ w)
    (hlt8 : pfx.length + w < 8) :
    BitField.pack bfP (bitsToNat slice) w = .ok (none, ⟨pfx ++ slice, bfP.offset⟩) := by
  have hvlt : bitsToNat slice < 2 ^ w := by
    rw [← hslice]
    exact bitsToNat_lt slice
  have hno : ¬ (w < binWidth (bitsToNat slice)) := by
    have := binWidth_le hw1 hvlt
    omega
  have hnb : natToBits (bitsToNat slice) w = slice := by
    rw [← hslice]
    exact natToBits_bitsToNat slice
  simp only [BitField.pack, hbfP, hnb]
  rw [if_neg hno, if_neg (by rw [List.length_append, hslice]; omega)]

/-- Packing bits that complete the byte emits it and clears the pending
buffer. -/
theorem bitfield_pack_complete {bfP : BitField} {pfx slice : List Bool} {w : Nat}
    (hbfP : bfP.field = pfx)
    (hslice : slice.length = w) (hw1 : 1 ≤ w)
    (hlen8 : pfx.length + w = 8) :
    BitField.pack bfP (bitsToNat slice) w
      = .ok (some (bitsToNat (pfx ++ slice)), ⟨[], bfP.offset⟩) := by
  have hvlt : bitsToNat slice < 2 ^ w := by
    rw [← hslice]
    exact bitsToNat_lt slice
  have hno : ¬ (w < binWidth (bitsToNat slice)) := by
    have := binWidth_le hw1 hvlt
    omega
  have hnb : natToBits (bitsToNat slice) w = slice := by
    rw [← hslice]
    exact natToBits_bitsToNat slice
  have hlapp : (pfx ++ slice).length = 8 := by
    rw [List.length_append, hslice, hlen8]
  simp only [BitField.pack, hbfP, hnb]
  rw [if_neg hno, if_pos (by rw [hlapp])]
  rw [List.take_of_length_le (by rw [hlapp]),
    List.drop_eq_nil_of_le (by rw [hlapp])]

/-- Head step of the encode loop for a sub-byte field whose bits stay
buffered. -/
theorem packFields_cons_bit_cont {reg : List (String × ValueType)} {tn en : String}
    {schema : List ParamDefField} {f : ParamDefField}
    {pairs : List (String × Value)} {bfP bf2 : BitField} {out : List Nat}
    {value : Nat}
    (hfind0 : schema.find? (fun g => g.name == f.name) = some f)
    (hfb : f.bit_size < 8)
    (hpk : BitField.pack bfP value f.bit_size = .ok (none, bf2)) :
    packFields reg tn en schema ((f.name, .vint (value : Int)) :: pairs) bfP out =
      packFields reg tn en schema pairs bf2 out := by
  have hnn : ¬ ((value : Int) < 0) := by
    have := Int.ofNat_nonneg value
    omega
  simp only [packFields, hfind0, if_pos hfb, if_neg hnn, Int.toNat_natCast, hpk]

/-- Head step of the encode loop for a sub-byte field whose bits complete a
byte, which is emitted. -/
theorem packFields_cons_bit_emit {reg : List (String × ValueType)} {tn en : String}
    {schema : List ParamDefField} {f : ParamDefField}
    {pairs : List (String × Value)} {bfP bf2 : BitField} {out : List Nat}
    {value byte : Nat}
    (hfind0 : schema.find? (fun g => g.name == f.name) = some f)
    (hfb : f.bit_size < 8)
    (hpk : BitField.pack bfP value f.bit_size = .ok (some byte, bf2)) :
    packFields reg tn en schema ((f.name, .vint (value : Int)) :: pairs) bfP out =
      packFields reg tn en schema pairs bf2 (out ++ [byte]) := by
  have hnn : ¬ ((value : Int) < 0) := by
    have := Int.ofNat_nonneg value
    omega
  simp only [packFields, hfind0, if_pos hfb, if_neg hnn, Int.toNat_natCast, hpk]

/-- Head step of the encode loop for a byte-aligned `dummy8` field with no
pending bits. -/
theorem packFields_cons_dummy {reg : List (String × ValueType)} {tn en : String}
    {schema : List ParamDefField} {f : ParamDefField}
    {pairs : List (String × Value)} {bfP : BitField} {out : List Nat} {v : Value}
    (hfind0 : schema.find? (fun g => g.name == f.name) = some f)
    (hfb : ¬ f.bit_size < 8) (hd : f.internal_type = "dummy8")
    (hbfP : bfP.field = []) :
    packFields reg tn en schema ((f.name, v) :: pairs) bfP out =
      packFields reg tn en schema pairs bfP (out ++ List.replicate f.size 0) := by
  obtain ⟨bpf, bpo⟩ := bfP
  simp only at hbfP
  subst hbfP
  simp only [packFields, hfind0, if_neg hfb, if_pos hd, padOut, BitField.pad]

/-- Head step of the encode loop for a byte-aligned scalar field with no
pending bits and a kind- and range-correct value. -/
theorem packFields_cons_scalar {reg : List (String × ValueType)} {tn en : String}
    {schema : List ParamDefField} {f : ParamDefField} {ft : ValueType}
    {pairs : List (String × Value)} {bfP : BitField} {out : List Nat} {v : Value}
    (hfind0 : schema.find? (fun g => g.name == f.name) = some f)
    (hfb : ¬ f.bit_size < 8) (hd : f.internal_type ≠ "dummy8")
    (hlookup : lookupType reg f = some ft)
    (hbfP : bfP.field = [])
    (hkind : kindOk ft v = true) (hrange : inRange ft v = true) :
    packFields reg tn en schema ((f.name, v) :: pairs) bfP out =
      packFields reg tn en schema pairs bfP (out ++ encodeScalar ft v) := by
  obtain ⟨bpf, bpo⟩ := bfP
  simp only at hbfP
  subst hbfP
  simp only [packFields, hfind0, if_neg hfb, hd, if_false, hlookup, hkind,
    hrange, if_true, padOut, BitField.pad]

set_option maxHeartbeats 1000000

/-- Main round-trip induction: starting from corresponding decoder/encoder
cursor states, a successful decode of the remaining schema fields re-encodes
to exactly the bytes the decoder consumed. -/
theorem roundtrip_go (reg : List (String × ValueType)) (tn en : String)
    (schema : List ParamDefField) (hreg : RegistrySound reg) :
    ∀ (fs : List ParamDefField) (acc : List (String × Value)) (bf bfP : BitField)
      (buffer out extra : List Nat) (res : List (String × Value)) (bfR : BitField)
      (rest : List Nat),
      (∀ f ∈ fs, schema.find? (fun g => g.name == f.name) = some f) →
      (fs.map (fun f => f.name)).Nodup →
      (∀ f ∈ fs, f.name ∉ acc.map Prod.fst) →
      noTolerated fs →
      allBytes buffer →
      StateOk fs bf bfP extra →
      unpackFields reg tn en fs acc bf buffer = .ok (res, bfR, rest) →
      ∃ pairs consumed,
        res = acc ++ pairs ∧
        buffer = consumed ++ rest ∧
        packFields reg tn en schema pairs bfP out = .ok (out ++ extra ++ consumed) := by
  intro fs
  induction fs with
  | nil =>
    intro acc bf bfP buffer out extra res bfR rest hfind hnodup hdisj hnt hbytes hso h
    simp only [unpackFields] at h
    injection h with h
    obtain ⟨h1, h2⟩ := Prod.mk.injEq .. ▸ h
    injection h2 with h2 h3
    rcases hso with ⟨_, _, _, hex⟩ | ⟨b, k, _, hk0, _, _, _, hwf, _⟩
    · subst hex
      exact ⟨[], [], by rw [← h1]; simp, by rw [← h3]; simp, by simp [packFields]⟩
    · simp only [wfBits, beq_iff_eq] at hwf
      omega
  | cons f fs ih =>
    intro acc bf bfP buffer out extra res bfR rest hfind hnodup hdisj hnt hbytes hso h
    have hfind0 : schema.find? (fun g => g.name == f.name) = some f := hfind f (by simp)
    have hfindT : ∀ g ∈ fs, schema.find? (fun x => x.name == g.name) = some g :=
      fun g hg => hfind g (List.mem_cons_of_mem _ hg)
    have hnodup2 := hnodup
    simp only [List.map_cons, List.nodup_cons] at hnodup2
    have hnodupT : (fs.map (fun f => f.name)).Nodup := hnodup2.2
    have hheadnotin : f.name ∉ fs.map (fun f => f.name) := hnodup2.1
    have hkacc : f.name ∉ acc.map Prod.fst := hdisj f (by simp)
    have hntT : noTolerated fs := fun g hg => hnt g (List.mem_cons_of_mem _ hg)
    have hnt0 : tolerated f.debug_name = false := hnt f (by simp)
    simp only [unpackFields] at h
    split at h
    · simp at h
    · next v bf2 buf2 hu =>
      rw [odInsert_append hkacc] at h
      have hdisjT : ∀ g ∈ fs, g.name ∉ (acc ++ [(f.name, v)]).map Prod.fst := by
        intro g hg
        simp only [List.map_append, List.map_cons, List.map_nil, List.mem_append,
          List.mem_singleton]
        rintro (hin | hin)
        · exact hdisj g (by simp [hg]) hin
        · exact hheadnotin (hin ▸ List.mem_map_of_mem _ hg)
      by_cases hfb : f.bit_size < 8
      · -- sub-byte field: decode through the bit cursor
        rw [unpackField, if_pos hfb] at hu
        cases hbu : BitField.unpack bf buffer f.bit_size with
        | none =>
          rw [hbu] at hu
          simp at hu
        | some trip =>
          obtain ⟨v2, bf3, buf3⟩ := trip
          rw [hbu] at hu
          injection hu with hu
          obtain ⟨hv, hu2⟩ := Prod.mk.injEq .. ▸ hu
          injection hu2 with hbf2 hbuf2
          subst hbf2
          subst hbuf2
          subst hv
          rcases hso with ⟨hbf, hbfP, hwf, hex⟩ | ⟨b, k, hb, hk0, hk8, hbf, hbfP, hwf, hex⟩
          · -- byte-aligned entry state: a fresh byte is consumed
            subst hbf
            subst hex
            obtain ⟨b0, hbuffer, hw1, hv2, hbf3⟩ := bit_unpack_aligned hfb hbu
            subst hbf3
            have hwf2 := hwf
            rw [wfBits, if_pos hfb, Bool.and_eq_true] at hwf2
            have hle8 : 0 + f.bit_size ≤ 8 := of_decide_eq_true hwf2.1
            have hwfT : wfBits fs f.bit_size = true := by
              have hmod : (0 + f.bit_size) % 8 = f.bit_size := by omega
              rw [← hmod]
              exact hwf2.2
            have hb0 : b0 < 256 := hbytes b0 (by rw [hbuffer]; simp)
            have hbytesT : allBytes buf3 := by
              intro x hx
              exact hbytes x (by rw [hbuffer]; simp [hx])
            have hslicelen : ((natToBits b0 8).take f.bit_size).length = f.bit_size := by
              rw [List.length_take, natToBits_length]
              omega
            have hpk : BitField.pack bfP v2 f.bit_size
                = .ok (none, ⟨[] ++ (natToBits b0 8).take f.bit_size, bfP.offset⟩) := by
              rw [hv2]
              exact bitfield_pack_append hbfP hslicelen hw1 (by simp; omega)
            have hsoT : StateOk fs ⟨natToBits b0 8, f.bit_size⟩
                ⟨[] ++ (natToBits b0 8).take f.bit_size, bfP.offset⟩ [b0] := by
              right
              exact ⟨b0, f.bit_size, hb0, by omega, hfb, rfl, by simp, hwfT, rfl⟩
            obtain ⟨pairs2, consumed2, hres, hbufeq, hpack⟩ :=
              ih (acc ++ [(f.name, .vint (v2 : Int))]) ⟨natToBits b0 8, f.bit_size⟩
                ⟨[] ++ (natToBits b0 8).take f.bit_size, bfP.offset⟩ buf3 out [b0]
                res bfR rest hfindT hnodupT hdisjT hntT hbytesT hsoT h
            refine ⟨(f.name, .vint (v2 : Int)) :: pairs2, b0 :: consumed2, ?_, ?_, ?_⟩
            · rw [hres]
              simp
            · rw [hbuffer, hbufeq]
              rfl
            · rw [packFields_cons_bit_cont hfind0 hfb hpk, hpack]
              simp
          · -- mid-byte entry state
            subst hbf
            subst hex
            have hwf2 := hwf
            rw [wfBits, if_pos hfb, Bool.and_eq_true] at hwf2
            have hle8 : k + f.bit_size ≤ 8 := of_decide_eq_true hwf2.1
            obtain ⟨hbufeq0, hw1, hv2, hbf3⟩ := bit_unpack_mid hk8 hle8 hbu
            have hbytes3 : allBytes buf3 := by
              rw [hbufeq0]
              exact hbytes
            have hslicelen : (((natToBits b 8).drop k).take f.bit_size).length
                = f.bit_size := by
              rw [List.length_take, List.length_drop, natToBits_length]
              omega
            have hjoin : (natToBits b 8).take k
                ++ ((natToBits b 8).drop k).take f.bit_size
                = (natToBits b 8).take (k + f.bit_size) := (List.take_add _ _ _).symm
            by_cases hc8 : k + f.bit_size = 8
            · -- the byte completes: the encoder emits it
              rw [if_pos hc8] at hbf3
              subst hbf3
              have hfull : (natToBits b 8).take (k + f.bit_size) = natToBits b 8 := by
                rw [hc8]
                exact List.take_of_length_le (by rw [natToBits_length])
              have hpk : BitField.pack bfP v2 f.bit_size
                  = .ok (some b, ⟨[], bfP.offset⟩) := by
                rw [hv2]
                rw [bitfield_pack_complete hbfP hslicelen hw1
                  (by rw [List.length_take, natToBits_length]; omega)]
                rw [hjoin, hfull]
                have h256 : (2 : Nat) ^ 8 = 256 := by norm_num
                rw [bitsToNat_natToBits (by rw [h256]; exact hb)]
              have hwfT : wfBits fs 0 = true := by
                have := hwf2.2
                rw [hc8] at this
                simpa using this
              have hsoT : StateOk fs ⟨[], 0⟩ ⟨[], bfP.offset⟩ [] :=
                Or.inl ⟨rfl, rfl, hwfT, rfl⟩
              obtain ⟨pairs2, consumed2, hres, hbufeq, hpack⟩ :=
                ih (acc ++ [(f.name, .vint (v2 : Int))]) ⟨[], 0⟩ ⟨[], bfP.offset⟩
                  buf3 (out ++ [b]) [] res bfR rest hfindT hnodupT hdisjT hntT
                  hbytes3 hsoT h
              refine ⟨(f.name, .vint (v2 : Int)) :: pairs2, consumed2, ?_, ?_, ?_⟩
              · rw [hres]
                simp
              · rw [← hbufeq0]
                exact hbufeq
              · rw [packFields_cons_bit_emit hfind0 hfb hpk, hpack]
                simp
            · -- still mid-byte
              rw [if_neg hc8] at hbf3
              subst hbf3
              have hpk : BitField.pack bfP v2 f.bit_size
                  = .ok (none, ⟨(natToBits b 8).take (k + f.bit_size), bfP.offset⟩) := by
                rw [hv2]
                rw [bitfield_pack_append hbfP hslicelen hw1
                  (by rw [List.length_take, natToBits_length]; omega)]
                rw [hjoin]
              have hwfT : wfBits fs (k + f.bit_size) = true := by
                have hh := hwf2.2
                have hmod : (k + f.bit_size) % 8 = k + f.bit_size := by omega
                rw [hmod] at hh
                exact hh
              have hsoT : StateOk fs ⟨natToBits b 8, k + f.bit_size⟩
                  ⟨(natToBits b 8).take (k + f.bit_size), bfP.offset⟩ [b] := by
                right
                exact ⟨b, k + f.bit_size, hb, by omega, by omega, rfl, by simp, hwfT, rfl⟩
              obtain ⟨pairs2, consumed2, hres, hbufeq, hpack⟩ :=
                ih (acc ++ [(f.name, .vint (v2 : Int))]) ⟨natToBits b 8, k + f.bit_size⟩
                  ⟨(natToBits b 8).take (k + f.bit_size), bfP.offset⟩
                  buf3 out [b] res bfR rest hfindT hnodupT hdisjT hntT hbytes3 hsoT h
              refine ⟨(f.name, .vint (v2 : Int)) :: pairs2, consumed2, ?_, ?_, ?_⟩
              · rw [hres]
                simp
              · rw [← hbufeq0]
                exact hbufeq
              · rw [packFields_cons_bit_cont hfind0 hfb hpk, hpack]
      · -- byte-aligned field: the state must be aligned
        rcases hso with ⟨hbf, hbfP, hwf, hex⟩ | ⟨b, k, hb, hk0, hk8, hbf, hbfP, hwf, hex⟩
        swap
        · rw [wfBits, if_neg hfb, Bool.and_eq_true, beq_iff_eq] at hwf
          omega
        subst hbf
        subst hex
        have hwfT : wfBits fs 0 = true := by
          rw [wfBits, if_neg hfb, Bool.and_eq_true] at hwf
          exact hwf.2
        by_cases hd : f.internal_type = "dummy8"
        · -- padding field
          rw [unpackField, if_neg hfb, if_pos hd] at hu
          split at hu
          · next hzero =>
            injection hu with hu
            obtain ⟨hv, hu2⟩ := Prod.mk.injEq .. ▸ hu
            injection hu2 with hbf2 hbuf2
            subst hbf2
            subst hbuf2
            subst hv
            have hbytesT : allBytes (buffer.drop f.size) := allBytes_drop hbytes _
            have hsoT : StateOk fs BitField.clear bfP [] :=
              Or.inl ⟨rfl, hbfP, hwfT, rfl⟩
            obtain ⟨pairs2, consumed2, hres, hbufeq, hpack⟩ :=
              ih (acc ++ [(f.name, .vbytes (buffer.take f.size))]) BitField.clear bfP
                (buffer.drop f.size) (out ++ List.replicate f.size 0) []
                res bfR rest hfindT hnodupT hdisjT hntT hbytesT hsoT h
            refine ⟨(f.name, .vbytes (buffer.take f.size)) :: pairs2,
              List.replicate f.size 0 ++ consumed2, ?_, ?_, ?_⟩
            · rw [hres]
              simp
            · rw [List.append_assoc, ← hbufeq, ← hzero]
              exact (List.take_append_drop _ _).symm
            · rw [packFields_cons_dummy hfind0 hfb hd hbfP, hpack]
              simp
          · simp at hu
        · -- scalar field
          rw [unpackField, if_neg hfb, if_neg hd] at hu
          split at hu
          · simp at hu
          · next ft hlk =>
            split at hu
            · next v0 hds =>
              injection hu with hu
              obtain ⟨hv, hu2⟩ := Prod.mk.injEq .. ▸ hu
              injection hu2 with hbf2 hbuf2
              subst hbf2
              subst hbuf2
              subst hv
              have hsound : ft.sound = true := lookup_sound hreg hlk
              obtain ⟨hkind, hrange, henc⟩ :=
                scalar_roundtrip hsound (allBytes_take hbytes _) hds
              have hbytesT : allBytes (buffer.drop ft.size) := allBytes_drop hbytes _
              have hsoT : StateOk fs BitField.clear bfP [] :=
                Or.inl ⟨rfl, hbfP, hwfT, rfl⟩
              obtain ⟨pairs2, consumed2, hres, hbufeq, hpack⟩ :=
                ih (acc ++ [(f.name, v0)]) BitField.clear bfP
                  (buffer.drop ft.size) (out ++ encodeScalar ft v0) []
                  res bfR rest hfindT hnodupT hdisjT hntT hbytesT hsoT h
              refine ⟨(f.name, v0) :: pairs2,
                buffer.take ft.size ++ consumed2, ?_, ?_, ?_⟩
              · rw [hres]
                simp
              · rw [List.append_assoc, ← hbufeq]
                exact (List.take_append_drop _ _).symm
              · rw [packFields_cons_scalar hfind0 hfb hd hlk hbfP hkind hrange,
                  hpack, henc]
                simp
            · next hds =>
              rw [hnt0] at hu
              simp at hu

instance decidableAllBytes (l : List Nat) : Decidable (allBytes l) :=
  inferInstanceAs (Decidable (∀ b ∈ l, b < 256))

instance decidableNoTolerated (fs : List ParamDefField) :
    Decidable (noTolerated fs) :=
  inferInstanceAs (Decidable (∀ f ∈ fs, tolerated f.debug_name = false))

instance decidableRegistrySound (reg : List (String × ValueType)) :
    Decidable (RegistrySound reg) :=
  inferInstanceAs (Decidable (∀ p ∈ reg, (p.2).sound = true))

/-- C1: re-encoding a successfully decoded record reproduces the original
entry bytes exactly.  Hypotheses: the registry's ranges cover what its
layouts decode (true of the real registry), the buffer holds bytes, the
schema satisfies the spec's bit-grouping contract with distinct field names,
no field carries one of the two substitution-tolerated debug names (those
fields are exempted by the claim), and decoding consumed the whole buffer.
Since the re-encoded bytes equal the original buffer, decoding the encoded
record again trivially returns the same record. -/
theorem c1_record_roundtrip (reg : List (String × ValueType)) (tn en : String)
    (schema : List ParamDefField) (buffer : List Nat)
    (res : List (String × Value)) (bfR : BitField)
    (hreg : RegistrySound reg)
    (hbytes : allBytes buffer)
    (hwf : wfBits schema 0 = true)
    (hnodup : (schema.map (fun f => f.name)).Nodup)
    (htol : noTolerated schema)
    (hunpack : ParamEntry.unpack reg tn en schema buffer = .ok (res, bfR, [])) :
    ParamEntry.pack reg tn en schema res = .ok buffer := by
  obtain ⟨pairs, consumed, hres, hbuf, hpack⟩ :=
    roundtrip_go reg tn en schema hreg schema [] ⟨[], 0⟩ ⟨[], 0⟩ buffer [] []
      res bfR [] (find_self_of_nodup hnodup) hnodup (by simp) htol hbytes
      (Or.inl ⟨rfl, rfl, hwf, rfl⟩) hunpack
  rw [ParamEntry.pack]
  have hp2 : res = pairs := by simpa using hres
  rw [hp2, hpack]
  congr 1
  simpa using hbuf.symm

/-- Witness for C1: a schema with a byte-aligned u8 field, two sub-byte
fields filling one byte, and a dummy8 pad byte, decoded from `[42, 157, 0]`
(157 = 5 + 8*19) and re-encoded to the same bytes. -/
theorem c1_record_roundtrip_witness :
    RegistrySound specRegistry
    ∧ allBytes [42, 157, 0]
    ∧ wfBits [⟨"a", "a", "u8", 8, 1⟩, ⟨"b1", "b1", "u8", 3, 1⟩,
        ⟨"b2", "b2", "u8", 5, 1⟩, ⟨"pad", "pad", "dummy8", 8, 1⟩] 0 = true
    ∧ noTolerated [⟨"a", "a", "u8", 8, 1⟩, ⟨"b1", "b1", "u8", 3, 1⟩,
        ⟨"b2", "b2", "u8", 5, 1⟩, ⟨"pad", "pad", "dummy8", 8, 1⟩]
    ∧ ParamEntry.unpack specRegistry "T" "E"
        [⟨"a", "a", "u8", 8, 1⟩, ⟨"b1", "b1", "u8", 3, 1⟩,
          ⟨"b2", "b2", "u8", 5, 1⟩, ⟨"pad", "pad", "dummy8", 8, 1⟩] [42, 157, 0]
      = .ok ([("a", .vint 42), ("b1", .vint 5), ("b2", .vint 19),
          ("pad", .vbytes [0])], ⟨[], 0⟩, [])
    ∧ ParamEntry.pack specRegistry "T" "E"
        [⟨"a", "a", "u8", 8, 1⟩, ⟨"b1", "b1", "u8", 3, 1⟩,
          ⟨"b2", "b2", "u8", 5, 1⟩, ⟨"pad", "pad", "dummy8", 8, 1⟩]
        [("a", .vint 42), ("b1", .vint 5), ("b2", .vint 19), ("pad", .vbytes [0])]
      = .ok [42, 157, 0] :=
  ⟨by decide, by decide, by decide, by decide, rfl,
    c1_record_roundtrip specRegistry "T" "E"
      [⟨"a", "a", "u8", 8, 1⟩, ⟨"b1", "b1", "u8", 3, 1⟩,
        ⟨"b2", "b2", "u8", 5, 1⟩, ⟨"pad", "pad", "dummy8", 8, 1⟩] [42, 157, 0]
      [("a", .vint 42), ("b1", .vint 5), ("b2", .vint 19), ("pad", .vbytes [0])]
      ⟨[], 0⟩ (by decide) (by decide) (by decide) (by decide) (by decide) rfl⟩

/-! ### Claim C8: sorted serialization layout -/

/-- Relative offsets of successive blob pieces, starting from `c` (exactly
what the source's running `current_name_offset` / `data_offset` record). -/
def offsetsFrom (c : Nat) : List (List Nat) → List Nat
  | [] => []
  | x :: xs => c :: offsetsFrom (c + x.length) xs

/-- The sorted entry list `ParamTable.pack` serializes by default. -/
def sortedOf (t : PTable) : List (Int × TableEntry) := sortedEntries t.entries

/-- The null-terminated encoded names, in entry order. -/
def nameZsOf (l : List (Int × TableEntry)) : List (List Nat) :=
  l.map (fun p => p.2.nameBytes ++ [0])

/-- `entry.pack()` for each entry in order: the data-blob pieces. -/
def packBodies (reg : List (String × ValueType)) (tnm : String) :
    List (Int × TableEntry) → Except PErr (List (List Nat))
  | [] => .ok []
  | p :: rest =>
    match ParamEntry.pack reg tnm p.2.name p.2.schema p.2.fields with
    | .error e => .error e
    | .ok body =>
      match packBodies reg tnm rest with
      | .error e => .error e
      | .ok bodies => .ok (body :: bodies)

/-- Modelled from the spec (§4.3): the pointer array as the spec words it —
one 12-byte record per entry, id first, then the absolute data and name
offsets, each the blob base plus the total length of the preceding pieces. -/
def specPtrs (dOff nOff : Nat) :
    List Int → List (List Nat) → List (List Nat) → List Nat
  | [], _, _ => []
  | id :: ids, body :: bodies, nameZ :: nameZs =>
    i32LE id ++ i32LE dOff ++ i32LE nOff
      ++ specPtrs (dOff + body.length) (nOff + nameZ.length) ids bodies nameZs
  | _ :: _, _, _ => []

theorem packBodies_length (reg : List (String × ValueType)) (tnm : String) :
    ∀ (l : List (Int × TableEntry)) (bodies : List (List Nat)),
      packBodies reg tnm l = .ok bodies → bodies.length = l.length := by
  intro l
  induction l with
  | nil =>
    intro bodies hm
    simp only [packBodies] at hm
    injection hm with hm
    rw [← hm]
    rfl
  | cons p rest ih =>
    intro bodies hm
    simp only [packBodies] at hm
    split at hm
    · simp at hm
    · split at hm
      · simp at hm
      · next bodies2 hb2 =>
        injection hm with hm
        rw [← hm]
        simp [ih bodies2 hb2]

/-- Closed form of the source's accumulator loop: when every entry packs,
the loop returns the relative-offset lists and both blobs. -/
theorem packLoop_ok (reg : List (String × ValueType)) (tnm : String) :
    ∀ (l : List (Int × TableEntry)) (bodies : List (List Nat))
      (cn cd : Nat) (nOffs dOffs pN pD : List Nat),
      packBodies reg tnm l = .ok bodies →
      packLoop reg tnm l cn cd nOffs dOffs pN pD
        = .ok (nOffs ++ offsetsFrom cn (nameZsOf l),
               dOffs ++ offsetsFrom cd bodies,
               pN ++ (nameZsOf l).flatten,
               pD ++ bodies.flatten) := by
  intro l
  induction l with
  | nil =>
    intro bodies cn cd nOffs dOffs pN pD hm
    simp only [packBodies] at hm
    injection hm with hm
    rw [← hm]
    simp [packLoop, nameZsOf, offsetsFrom]
  | cons p rest ih =>
    intro bodies cn cd nOffs dOffs pN pD hm
    simp only [packBodies] at hm
    split at hm
    · simp at hm
    · next body hbody =>
      split at hm
      · simp at hm
      · next bodies2 hb2 =>
        injection hm with hm
        rw [← hm]
        simp only [packLoop, hbody]
        have hrec := ih bodies2 (cn + (p.2.nameBytes ++ [0]).length)
          (cd + body.length) (nOffs ++ [cn]) (dOffs ++ [cd])
          (pN ++ (p.2.nameBytes ++ [0])) (pD ++ body) hb2
        rw [hrec]
        simp [nameZsOf, offsetsFrom, List.append_assoc]

/-- The source's zip of ids with recorded relative offsets equals the spec's
running-sum pointer array. -/
theorem buildPtrs_eq_specPtrs (eDO nDO : Nat) :
    ∀ (ids : List Int) (bodies nameZs : List (List Nat)) (cd cn : Nat),
      ids.length = bodies.length → ids.length = nameZs.length →
      buildPtrs eDO nDO ids (offsetsFrom cd bodies) (offsetsFrom cn nameZs)
        = specPtrs (eDO + cd) (nDO + cn) ids bodies nameZs := by
  intro ids
  induction ids with
  | nil =>
    intro bodies nameZs cd cn h1 h2
    cases bodies with
    | nil =>
      cases nameZs with
      | nil => rfl
      | cons z zs => simp at h2
    | cons b bs => simp at h1
  | cons id ids ih =>
    intro bodies nameZs cd cn h1 h2
    cases bodies with
    | nil => simp at h1
    | cons body bodies2 =>
      cases nameZs with
      | nil => simp at h2
      | cons nameZ nameZs2 =>
        simp only [offsetsFrom, buildPtrs, specPtrs]
        have hrec := ih bodies2 nameZs2 (cd + body.length) (cn + nameZ.length)
          (by simpa using h1) (by simpa using h2)
        rw [hrec, Nat.add_assoc, Nat.add_assoc]
        norm_cast

instance keyLeTotal : IsTotal (Int × TableEntry) (fun a b => a.1 ≤ b.1) :=
  ⟨fun a b => Int.le_total a.1 b.1⟩

instance keyLeTrans : IsTrans (Int × TableEntry) (fun a b => a.1 ≤ b.1) :=
  ⟨fun _ _ _ h1 h2 => le_trans h1 h2⟩

/-- C8: packing with sorting enabled (the default) emits entries in
ascending id order — the sorted list is a permutation of the stored entries,
so every record's field values are preserved — and lays the file out as
header, pointer array, entry-data blob, name blob, with each pointer's
absolute data/name offsets recomputed as blob base plus the lengths of the
preceding pieces, and the parsed magic and unknown header values emitted
verbatim. -/
theorem c8_sorted_serialization (reg : List (String × ValueType)) (t : PTable)
    (m0 m1 m2 u : Int) (bodies : List (List Nat))
    (hm : t.magic = [m0, m1, m2])
    (hu : t.unknown = some u)
    (hbodies : packBodies reg t.param_name (sortedOf t) = .ok bodies) :
    List.Sorted (fun a b : Int => a ≤ b) ((sortedOf t).map Prod.fst)
    ∧ (sortedOf t).Perm t.entries
    ∧ ParamTable.pack reg t true
      = .ok (headerBytes
            (headerSize + entryPointerSize * (sortedOf t).length + bodies.flatten.length)
            (min (headerSize + entryPointerSize * (sortedOf t).length) 65535)
            m0 m1 (sortedOf t).length t.param_name m2 u
          ++ specPtrs (headerSize + entryPointerSize * (sortedOf t).length)
              (headerSize + entryPointerSize * (sortedOf t).length + bodies.flatten.length)
              ((sortedOf t).map Prod.fst) bodies (nameZsOf (sortedOf t))
          ++ bodies.flatten ++ (nameZsOf (sortedOf t)).flatten) := by
  refine ⟨?_, ?_, ?_⟩
  · have hs := List.sorted_insertionSort
      (fun (a b : Int × TableEntry) => a.1 ≤ b.1) t.entries
    exact List.Pairwise.map Prod.fst (fun a b h => h) hs
  · exact List.perm_insertionSort (fun (a b : Int × TableEntry) => a.1 ≤ b.1) t.entries
  · have hloop := packLoop_ok reg t.param_name (sortedOf t) bodies 0 0 [] [] [] []
      hbodies
    have hlenb : bodies.length = (sortedOf t).length :=
      packBodies_length reg t.param_name (sortedOf t) bodies hbodies
    have hptr := buildPtrs_eq_specPtrs
      (headerSize + entryPointerSize * (sortedOf t).length)
      (headerSize + entryPointerSize * (sortedOf t).length + bodies.flatten.length)
      ((sortedOf t).map Prod.fst) bodies (nameZsOf (sortedOf t)) 0 0
      (by simp [hlenb]) (by simp [nameZsOf])
    simp only [Nat.add_zero] at hptr
    simp only [sortedOf] at hptr
    simp only [ParamTable.pack, if_true, sortedOf] at hloop ⊢
    rw [hloop]
    simp only [List.nil_append, hm, hu]
    rw [hptr]

/-- A one-field u8 schema and three named entries for the C8 scenario. -/
def sampleField : ParamDefField := ⟨"fld", "fld", "u8", 8, 1⟩

def sampleEntryA : TableEntry := ⟨"A", [65], [sampleField], [("fld", .vint 10)]⟩

def sampleEntryB : TableEntry := ⟨"B", [66], [sampleField], [("fld", .vint 11)]⟩

def sampleEntryC : TableEntry := ⟨"C", [67], [sampleField], [("fld", .vint 12)]⟩

/-- A parsed-style table holding ids {5, 1, 3} in that insertion order. -/
def sampleTable : PTable :=
  ⟨"TBL", [7, 8, 9], some 3, [(5, sampleEntryA), (1, sampleEntryB), (3, sampleEntryC)]⟩

/-- Witness for C8: the table with ids {5, 1, 3} serializes with ids
reordered to [1, 3, 5] and the header/pointer/data/name layout. -/
theorem c8_sorted_serialization_witness :
    sampleTable.magic = [7, 8, 9]
    ∧ sampleTable.unknown = some 3
    ∧ packBodies specRegistry sampleTable.param_name (sortedOf sampleTable)
        = .ok [[11], [12], [10]]
    ∧ (sortedOf sampleTable).map Prod.fst = [1, 3, 5]
    ∧ (List.Sorted (fun a b : Int => a ≤ b) ((sortedOf sampleTable).map Prod.fst)
      ∧ (sortedOf sampleTable).Perm sampleTable.entries
      ∧ ParamTable.pack specRegistry sampleTable true
        = .ok (headerBytes
              (headerSize + entryPointerSize * (sortedOf sampleTable).length
                + ([[11], [12], [10]] : List (List Nat)).flatten.length)
              (min (headerSize + entryPointerSize * (sortedOf sampleTable).length) 65535)
              7 8 (sortedOf sampleTable).length sampleTable.param_name 9 3
            ++ specPtrs (headerSize + entryPointerSize * (sortedOf sampleTable).length)
                (headerSize + entryPointerSize * (sortedOf sampleTable).length
                  + ([[11], [12], [10]] : List (List Nat)).flatten.length)
                ((sortedOf sampleTable).map Prod.fst) [[11], [12], [10]]
                (nameZsOf (sortedOf sampleTable))
            ++ ([[11], [12], [10]] : List (List Nat)).flatten
            ++ (nameZsOf (sortedOf sampleTable)).flatten)) :=
  ⟨rfl, rfl, rfl, by decide,
    c8_sorted_serialization specRegistry sampleTable 7 8 9 3 [[11], [12], [10]]
      rfl rfl rfl⟩
